import Mathlib

/-!
Verification of the sutd-coin node against its specification.

The development shallowly embeds the Python sources:

* Python dictionaries become association lists with insertion-order
  semantics (update in place, append when the key is fresh).
* SHA-256 and ECDSA are treated as oracles: hash functions are explicit
  parameters, signature verification is a boolean oracle.  The chain-store
  embedding is polymorphic in the type of header hashes.
* Python floats (timestamps) are embedded as integers: the code only ever
  compares timestamps produced by utcnow, so their order structure is all
  that matters.
* Methods that can raise become functions into Except String; loops whose
  termination depends on data (the backward chain walks) take explicit
  fuel, and exhausting the fuel models the non-termination of the source
  loop on a malformed store.
-/

set_option maxHeartbeats 1000000
set_option linter.unusedSectionVars false

namespace SutdCoin

/-! Python dict primitives over association lists.  A Python dict iterates
in insertion order; assignment to an existing key keeps its position,
assignment to a fresh key appends. -/

def dget? {K V : Type} [DecidableEq K] : List (K × V) → K → Option V
  | [], _ => none
  | kv :: rest, k => if kv.1 = k then some kv.2 else dget? rest k

def dcontains {K V : Type} [DecidableEq K] (m : List (K × V)) (k : K) : Bool :=
  (dget? m k).isSome

def dset {K V : Type} [DecidableEq K] : List (K × V) → K → V → List (K × V)
  | [], k, v => [(k, v)]
  | kv :: rest, k, v => if kv.1 = k then (k, v) :: rest else kv :: dset rest k v

def dpop {K V : Type} [DecidableEq K] : List (K × V) → K → List (K × V)
  | [], _ => []
  | kv :: rest, k => if kv.1 = k then rest else kv :: dpop rest k

/-! Transactions.  Transaction.to_json serializes the six fields in a fixed
key order with a canonical encoder, so JSON-string equality of transactions
is exactly structural equality of this record; we therefore embed a
transaction JSON string as the record itself where the code only ever
parses it back (blocks, balance computation). -/

structure Tx where
  sender : String
  receiver : String
  amount : Int
  comment : String
  nonce : String
  signat : String
  deriving DecidableEq, Repr

def REWARD : Int := 100

def zeros64 : String := String.mk (List.replicate 64 '0')

def fs64 : String := String.mk (List.replicate 64 'f')

/-- TARGET from block.py: four zeroes, then "1", then 59 times "f". -/
def TARGET : String := "0000" ++ "1" ++ String.mk (List.replicate 59 'f')

/-- Lexicographic comparison of character lists by code point. -/
def charListLt : List Char → List Char → Bool
  | [], [] => false
  | [], _ :: _ => true
  | _ :: _, [] => false
  | c1 :: r1, c2 :: r2 =>
    if c1.toNat < c2.toNat then true
    else if c2.toNat < c1.toNat then false
    else charListLt r1 r2

/-- Python string comparison of two hex digests: lexicographic by code
point, which on equal-length hex strings is the numeric order the
proof-of-work test relies on. -/
def strLt (a b : String) : Bool := charListLt a.data b.data

/-! Merkle tree, embedded faithfully from merkle_tree.py.

MerkleTree.Node.__init__ sets
  self.height = left.height + 1 if left is None else 0
which, read with Python's conditional-expression precedence, evaluates
left.height exactly when left is None, so constructing a leaf node (left =
None) raises AttributeError. -/

structure MerkleNode where
  idNo : Nat
  hashVal : String
  height : Nat
  deriving DecidableEq, Repr

/-- Faithful embedding of MerkleTree.Node construction.  For a leaf the
source evaluates None.height and raises; for an inner node it sets height
to 0 (the branches of the conditional expression are swapped in the
source). -/
def merkleNodeNewE (idNo : Nat) (left : Option MerkleNode) (hashVal : String) :
    Except String MerkleNode :=
  match left with
  | none => Except.error "AttributeError: 'NoneType' object has no attribute 'height'"
  | some _ => Except.ok { idNo := idNo, hashVal := hashVal, height := 0 }

/-- Faithful embedding of MerkleTree._hash_items.  The source loop is
  for i in enumerate(items): item = items[i]
so i is bound to the pair (index, element) and items[i] indexes a Python
list with a tuple, which raises TypeError on the first iteration whenever
items is non-empty.  On an empty list the loop body never runs and the
empty table is returned. -/
def hashItemsE (items : List String) : Except String (List (String × MerkleNode)) :=
  match items with
  | [] => Except.ok []
  | _ :: _ => Except.error "TypeError: list indices must be integers or slices, not tuple"

/-- Faithful embedding of MerkleTree(items) followed by get_root().
__init__ calls _hash_items (which raises for non-empty items, see
hashItemsE) and then build(); with an empty leaves table build() marks the
tree built without assigning a root, and get_root() returns None. -/
def merkleRootE (items : List String) : Except String (Option String) :=
  match hashItemsE items with
  | Except.error e => Except.error e
  | Except.ok _ => Except.ok none

/-! Blocks at the wire level (block.py).  Headers carry hex strings; the
timestamp float is embedded as an integer (see the file comment). -/

structure HeaderS where
  prev_hash : String
  root : String
  timestamp : Int
  nonce : String
  deriving DecidableEq, Repr

structure BlockS where
  header : HeaderS
  transactions : List String
  deriving DecidableEq, Repr

def genesisHeaderS : HeaderS :=
  { prev_hash := zeros64, root := fs64, timestamp := 1337, nonce := zeros64 }

def genesisBlockS : BlockS := { header := genesisHeaderS, transactions := [] }

/-- Block._verify_transactions, with Transaction.from_json as a parser
oracle and signature verification as a boolean oracle.  Index 0 must be a
coinbase: amount equal to REWARD and sender equal to receiver; every
transaction (the coinbase included) must pass signature verification. -/
def verifyTransactionsE (parseTxE : String → Except String Tx) (txVerify : Tx → Bool) :
    Nat → List String → Except String Bool
  | _, [] => Except.ok true
  | i, tj :: rest =>
    match parseTxE tj with
    | Except.error e => Except.error e
    | Except.ok t =>
      if i = 0 ∧ (t.amount ≠ REWARD ∨ t.sender ≠ t.receiver) then Except.ok false
      else if ¬ txVerify t then Except.ok false
      else verifyTransactionsE parseTxE txVerify (i + 1) rest

/-- Block._check_duplicate_trans: the set of transaction strings has the
same size as the list exactly when the list has no duplicates. -/
def checkDuplicateTrans (txs : List String) : Bool :=
  decide txs.Nodup

/-- Faithful embedding of Block.verify.  A block equal to the fixed genesis
block is accepted at once.  Otherwise the header hash is checked against
TARGET, then _check_root builds MerkleTree(self._transactions) — which
raises TypeError for every non-empty transaction list (see hashItemsE) and
yields None for an empty one, in which case the comparison with the header
root string fails.  The remaining checks are the transaction checks and
the duplicate check. -/
def blockVerifyE (hash1dic : HeaderS → String) (parseTxE : String → Except String Tx)
    (txVerify : Tx → Bool) (b : BlockS) : Except String Bool :=
  if b = genesisBlockS then Except.ok true
  else if ¬ strLt (hash1dic b.header) TARGET then Except.error "Invalid block header hash."
  else
    match merkleRootE b.transactions with
    | Except.error e => Except.error e
    | Except.ok calcRoot =>
      if calcRoot ≠ some b.header.root then Except.error "Invalid root in block."
      else
        match verifyTransactionsE parseTxE txVerify 0 b.transactions with
        | Except.error e => Except.error e
        | Except.ok ok =>
          if ¬ ok then Except.error "Some transactions are invalid."
          else if ¬ checkDuplicateTrans b.transactions then
            Except.error "Duplicate transactions found."
          else Except.ok true

/-- The proof-of-work loop of Block.new: before each attempt the
cancellation event is polled; on cancellation the method returns None.
Nonces are drawn from an oracle stream, the fuel bounds the embedded
search (the source loop is unbounded). -/
def mineLoopE (hash1dic : HeaderS → String) (prevHash root : String) (timestamp : Int)
    (nonces : Nat → String) (stopMine : Nat → Bool) (transactions : List String) :
    Nat → Nat → Except String (Option BlockS)
  | _, 0 => Except.error "mining fuel exhausted"
  | i, fuel + 1 =>
    if stopMine i then Except.ok none
    else
      let hd : HeaderS :=
        { prev_hash := prevHash, root := root, timestamp := timestamp, nonce := nonces i }
      if strLt (hash1dic hd) TARGET then Except.ok (some { header := hd, transactions := transactions })
      else mineLoopE hash1dic prevHash root timestamp nonces stopMine transactions (i + 1) fuel

/-- Faithful embedding of Block.new.  An empty transaction list raises
before any header is constructed or any proof-of-work attempted; otherwise
the Merkle root is computed (which in the source raises TypeError for
every non-empty list, so the ok branch of the match is unreachable) and
the mining loop runs. -/
def blockNewE (hash1dic : HeaderS → String) (prevHash : String) (transactions : List String)
    (timestamp : Int) (nonces : Nat → String) (stopMine : Nat → Bool) (fuel : Nat) :
    Except String (Option BlockS) :=
  if transactions = [] then Except.error "No transactions in block creation."
  else
    match merkleRootE transactions with
    | Except.error e => Except.error e
    | Except.ok rootOpt =>
      mineLoopE hash1dic prevHash (rootOpt.getD "") timestamp nonces stopMine transactions 0 fuel

/-! The chain store (src/src/blockchain.py).  The embedding is polymorphic
in the type H of header hashes; a context bundles the hash oracle (hash1
of the canonical header JSON), the sentinel that the genesis header stores
in its prev_hash field (64 zeroes in the source), the integer reading of a
hash used by the chain-PoW tie break (int(hash, 16)), and the
self-contained block check block.validate() plus block.verify() as a
boolean oracle (its source behaviour is settled separately: it raises for
every non-genesis block because of the Merkle bug, see blockVerifyE). -/

structure HeaderC (H : Type) where
  prev_hash : H
  root : String
  timestamp : Int
  nonce : String
  deriving DecidableEq, Repr

structure BlockC (H : Type) where
  header : HeaderC H
  transactions : List Tx
  deriving DecidableEq, Repr

structure Ctx (H : Type) where
  hashH : HeaderC H → H
  gprev : H
  hval : H → Nat
  selfOk : BlockC H → Bool

/-- The two dictionaries of a Blockchain instance: block hash to block, and
last-block hash to chain length. -/
structure ChainState (H : Type) where
  hashBlockMap : List (H × BlockC H)
  endhashClenMap : List (H × Nat)
  deriving DecidableEq, Repr

variable {H : Type} [DecidableEq H]

def genesisHeaderC (c : Ctx H) : HeaderC H :=
  { prev_hash := c.gprev, root := fs64, timestamp := 1337, nonce := zeros64 }

def genesisBlockC (c : Ctx H) : BlockC H :=
  { header := genesisHeaderC c, transactions := [] }

/-- Blockchain.new(): the genesis block under its header hash, and that
hash as the single end block with chain length zero. -/
def newChainState (c : Ctx H) : ChainState H :=
  { hashBlockMap := [(c.hashH (genesisHeaderC c), genesisBlockC c)],
    endhashClenMap := [(c.hashH (genesisHeaderC c), 0)] }

/-- The inner lookup loop shared by _get_chain_length and _get_chain_pow:
scan the dict values in insertion order for the block whose recomputed
header hash equals the wanted hash. -/
def findByHash (c : Ctx H) : List (H × BlockC H) → H → Option (BlockC H)
  | [], _ => none
  | kv :: rest, target =>
    if c.hashH kv.2.header = target then some kv.2 else findByHash c rest target

/-- The backward walk of _get_chain_length and _get_chain_pow: follow
prev_hash links, collecting the blocks found, until the genesis sentinel
is reached.  The source loop spins forever when a hash cannot be resolved;
the embedding returns an error then, and likewise when the fuel runs
out. -/
def walkE (c : Ctx H) (bs : List (H × BlockC H)) : Nat → H → Except String (List (BlockC H))
  | 0, _ => Except.error "unbounded loop in chain walk"
  | fuel + 1, ph =>
    if ph = c.gprev then Except.ok []
    else
      match findByHash c bs ph with
      | none => Except.error "unbounded loop in chain walk"
      | some blk => (walkE c bs fuel blk.header.prev_hash).map (fun l => blk :: l)

/-- Canonical fuel for the walks: one more than the store size, enough for
any store whose walks terminate at all. -/
def walkFuel (bs : List (H × BlockC H)) : Nat := bs.length + 1

/-- Blockchain._get_chain_length: the number of blocks the backward walk
from block.prev_hash finds before reaching the genesis sentinel. -/
def getChainLengthE (c : Ctx H) (bs : List (H × BlockC H)) (b : BlockC H) :
    Except String Nat :=
  (walkE c bs (walkFuel bs) b.header.prev_hash).map List.length

/-- Blockchain._get_chain_pow: the block's own header hash read as an
integer, plus the same reading of every header hash the backward walk
finds down to and including genesis. -/
def getChainPowE (c : Ctx H) (bs : List (H × BlockC H)) (b : BlockC H) :
    Except String Nat :=
  (walkE c bs (walkFuel bs) b.header.prev_hash).map
    (fun l => c.hval (c.hashH b.header) + (l.map (fun x => c.hval (c.hashH x.header))).sum)

/-- Blockchain.get_blocks_by_fork: walk prev_hash links by dictionary
lookup (KeyError when absent) from last_block until the genesis block,
collecting the blocks tip first, genesis excluded. -/
def blocksByForkE (c : Ctx H) (bs : List (H × BlockC H)) :
    Nat → BlockC H → Except String (List (BlockC H))
  | 0, _ => Except.error "unbounded loop in fork walk"
  | fuel + 1, cur =>
    if cur = genesisBlockC c then Except.ok []
    else
      match dget? bs cur.header.prev_hash with
      | none => Except.error "KeyError"
      | some prevB => (blocksByForkE c bs fuel prevB).map (fun l => cur :: l)

/-- Blockchain.get_transactions_by_fork: the transaction lists of the fork
blocks, concatenated in the order get_blocks_by_fork returns them. -/
def transactionsByForkE (c : Ctx H) (s : ChainState H) (last : BlockC H) :
    Except String (List Tx) :=
  (blocksByForkE c s.hashBlockMap (walkFuel s.hashBlockMap) last).map
    (fun l => (l.map (fun b => b.transactions)).flatten)

/-! Balance maps are Python dicts from public key to integer amount. -/

def lookupD (bal : List (String × Int)) (k : String) : Int :=
  (dget? bal k).getD 0

def ensureKey (bal : List (String × Int)) (k : String) : List (String × Int) :=
  if dcontains bal k then bal else dset bal k 0

/-- One loop iteration of get_balance_by_fork: create missing accounts for
sender and receiver, then either credit the receiver alone (index 0 with
sender equal to receiver, the coinbase case) or debit the sender and
credit the receiver. -/
def applyTxBal (bal : List (String × Int)) (i : Nat) (t : Tx) : List (String × Int) :=
  let bal1 := ensureKey bal t.sender
  let bal2 := ensureKey bal1 t.receiver
  if i = 0 ∧ t.sender = t.receiver then
    dset bal2 t.receiver ((dget? bal2 t.receiver).getD 0 + t.amount)
  else
    let bal3 := dset bal2 t.sender ((dget? bal2 t.sender).getD 0 - t.amount)
    dset bal3 t.receiver ((dget? bal3 t.receiver).getD 0 + t.amount)

def applyTxsBal : List (String × Int) → Nat → List Tx → List (String × Int)
  | bal, _, [] => bal
  | bal, i, t :: ts => applyTxsBal (applyTxBal bal i t) (i + 1) ts

def applyBlockBal (bal : List (String × Int)) (b : BlockC H) : List (String × Int) :=
  applyTxsBal bal 0 b.transactions

def anyNegative (bal : List (String × Int)) : Bool :=
  bal.any (fun kv => decide (kv.2 < 0))

/-- Faithful embedding of Blockchain.get_balance_by_fork: apply the
transactions of every fork block in the order get_blocks_by_fork returns
the blocks (tip first), then raise if any resulting balance is negative —
the source checks negativity only on the final map, after all transactions
have been applied. -/
def getBalanceByForkE (c : Ctx H) (s : ChainState H) (last : BlockC H) :
    Except String (List (String × Int)) :=
  match blocksByForkE c s.hashBlockMap (walkFuel s.hashBlockMap) last with
  | Except.error e => Except.error e
  | Except.ok blks =>
    let bal := blks.foldl applyBlockBal []
    if anyNegative bal then Except.error "Negative amount when computing balance."
    else Except.ok bal

/-- Blockchain.verify: previous block exists; previous block passes the
self-contained check; strictly larger timestamp; the block itself passes
the self-contained check; no transaction of the block already appears on
the fork ending at the previous block. -/
def bcVerifyE (c : Ctx H) (s : ChainState H) (b : BlockC H) : Except String Bool :=
  match dget? s.hashBlockMap b.header.prev_hash with
  | none => Except.error "Previous block does not exist."
  | some prevB =>
    if ¬ c.selfOk prevB then Except.error "Previous block is invalid."
    else if ¬ prevB.header.timestamp < b.header.timestamp then
      Except.error "Invalid timestamp in block."
    else if ¬ c.selfOk b then Except.error "Invalid block."
    else
      match transactionsByForkE c s prevB with
      | Except.error e => Except.error e
      | Except.ok chainTx =>
        if b.transactions.all (fun t => decide (t ∉ chainTx)) then Except.ok true
        else Except.error "Transaction is already in the blockchain."

/-- Blockchain.add: verify, insert the block under its header hash, then
either promote the previous end block (pop it, record the new hash with
its length plus one) or, when the previous hash is not an end block,
record the new hash with a length recomputed by the backward walk over the
updated map. -/
def addE (c : Ctx H) (s : ChainState H) (b : BlockC H) : Except String (ChainState H) :=
  match bcVerifyE c s b with
  | Except.error e => Except.error e
  | Except.ok _ =>
    let curr := c.hashH b.header
    let ph := b.header.prev_hash
    let blocks2 := dset s.hashBlockMap curr b
    match dget? s.endhashClenMap ph with
    | some n =>
      Except.ok { hashBlockMap := blocks2,
                  endhashClenMap := dset (dpop s.endhashClenMap ph) curr (n + 1) }
    | none =>
      match getChainLengthE c blocks2 b with
      | Except.error e => Except.error e
      | Except.ok len =>
        Except.ok { hashBlockMap := blocks2, endhashClenMap := dset s.endhashClenMap curr len }

/-- A sequence of successful add calls. -/
def runAddsE (c : Ctx H) : ChainState H → List (BlockC H) → Except String (ChainState H)
  | s, [] => Except.ok s
  | s, b :: bs =>
    match addE c s b with
    | Except.error e => Except.error e
    | Except.ok s2 => runAddsE c s2 bs

def maxNat? : List Nat → Option Nat
  | [] => none
  | x :: xs => some (xs.foldl max x)

/-- Python max(list, key=f) with an effectful key: scan left to right and
keep the current element unless the next key is strictly larger, so the
first maximizer wins. -/
def pyMaxAccE (f : H → Except String Nat) : H → Nat → List H → Except String H
  | best, _, [] => Except.ok best
  | best, bv, x :: xs =>
    match f x with
    | Except.error e => Except.error e
    | Except.ok xv => if bv < xv then pyMaxAccE f x xv xs else pyMaxAccE f best bv xs

def pyMaxKeyE (f : H → Except String Nat) : List H → Except String H
  | [] => Except.error "ValueError: max() arg is an empty sequence"
  | x :: xs =>
    match f x with
    | Except.error e => Except.error e
    | Except.ok xv => pyMaxAccE f x xv xs

/-- Blockchain._pow: look the end block up and compute its chain PoW. -/
def powE (c : Ctx H) (s : ChainState H) (k : H) : Except String Nat :=
  match dget? s.hashBlockMap k with
  | none => Except.error "KeyError"
  | some b => getChainPowE c s.hashBlockMap b

/-- Faithful embedding of Blockchain.resolve (src/src/blockchain.py): with
a single end block return its block; otherwise take the end blocks of
maximal recorded length and, when there is more than one, the first one of
maximal chain PoW; the pruning call of the source is commented out, so the
method reads the two dictionaries and writes nothing. -/
def resolveE (c : Ctx H) (s : ChainState H) : Except String (BlockC H) :=
  match s.endhashClenMap with
  | [(k, _)] =>
    match dget? s.hashBlockMap k with
    | none => Except.error "KeyError"
    | some b => Except.ok b
  | tips =>
    match maxNat? (tips.map Prod.snd) with
    | none => Except.error "ValueError: max() arg is an empty sequence"
    | some longest =>
      let cands := (tips.filter (fun kv => decide (kv.2 = longest))).map Prod.fst
      let pick : Except String H :=
        match cands with
        | [k] => Except.ok k
        | cs => pyMaxKeyE (powE c s) cs
      match pick with
      | Except.error e => Except.error e
      | Except.ok k =>
        match dget? s.hashBlockMap k with
        | none => Except.error "KeyError"
        | some b => Except.ok b

/-- Blockchain.resolve as a state transformer.  The method body only reads
self._hash_block_map and self._endhash_clen_map (the call that would prune
fork blocks is commented out in the source), so the embedding threads the
state through unchanged. -/
def resolveStateE (c : Ctx H) (s : ChainState H) : Except String (ChainState H × BlockC H) :=
  (resolveE c s).map (fun b => (s, b))

/-- The pruning walk of the legacy resolve (src/blockchain.py): rebuild the
block dict from the winning tip back to genesis by dictionary lookups. -/
def pruneWalkE (c : Ctx H) (bs : List (H × BlockC H)) :
    Nat → H → Except String (List (H × BlockC H))
  | 0, _ => Except.error "unbounded loop in chain walk"
  | fuel + 1, ph =>
    if ph = c.gprev then Except.ok []
    else
      match dget? bs ph with
      | none => Except.error "KeyError"
      | some b => (pruneWalkE c bs fuel b.header.prev_hash).map (fun l => (ph, b) :: l)

/-- Faithful embedding of the legacy Blockchain.resolve (src/blockchain.py
lines 125 to 150): the same winner selection, except that its _pow helper
is declared without a self parameter so the tie branch raises NameError at
call time; afterwards the store is pruned: the block dict is rebuilt from
the winner's chain alone and the end-block dict is reset to the winner.
With a single end block the method returns early without pruning. -/
def legacyResolveE (c : Ctx H) (s : ChainState H) :
    Except String (ChainState H × BlockC H) :=
  match s.endhashClenMap with
  | [(k, _)] =>
    match dget? s.hashBlockMap k with
    | none => Except.error "KeyError"
    | some b => Except.ok (s, b)
  | tips =>
    match maxNat? (tips.map Prod.snd) with
    | none => Except.error "ValueError: max() arg is an empty sequence"
    | some longest =>
      let cands := (tips.filter (fun kv => decide (kv.2 = longest))).map Prod.fst
      let pick : Except String H :=
        match cands with
        | [k] => Except.ok k
        | _ => Except.error "NameError: name self is not defined"
      match pick with
      | Except.error e => Except.error e
      | Except.ok k =>
        match dget? s.hashBlockMap k with
        | none => Except.error "KeyError"
        | some b =>
          match pruneWalkE c s.hashBlockMap (walkFuel s.hashBlockMap) b.header.prev_hash with
          | Except.error e => Except.error e
          | Except.ok entries =>
            Except.ok ({ hashBlockMap := (k, b) :: entries,
                         endhashClenMap := [(k, longest)] }, b)

/-! The miner-side mempool and balance engine (src/src/miner.py). -/

/-- Miner.add_transaction: verify the signature (oracle), then insert the
transaction JSON into the all-transactions set unless it is already
there.  The pool is a Python set of JSON strings; the embedding keeps a
duplicate-free list. -/
def addTransactionE (txOk : String → Bool) (allTx : List String) (txJson : String) :
    Except String (List String) :=
  if ¬ txOk txJson then Except.error "New transaction failed signature verification."
  else if txJson ∈ allTx then Except.ok allTx
  else Except.ok (allTx ++ [txJson])

/-- Miner._check_transactions_balance: replay the transactions on a copy of
the current balance; the sender must already have an account, the receiver
account is created on demand; fail as soon as the sender or the receiver
balance goes negative. -/
def checkTransactionsBalance (bal : List (String × Int)) : List Tx → Bool
  | [] => true
  | t :: ts =>
    match dget? bal t.sender with
    | none => false
    | some _ =>
      let bal1 := ensureKey bal t.receiver
      let bal2 := dset bal1 t.sender ((dget? bal1 t.sender).getD 0 - t.amount)
      let bal3 := dset bal2 t.receiver ((dget? bal2 t.receiver).getD 0 + t.amount)
      if (dget? bal3 t.sender).getD 0 < 0 ∨ (dget? bal3 t.receiver).getD 0 < 0 then false
      else checkTransactionsBalance bal3 ts

def coinbaseTx (pk nonce sig : String) : Tx :=
  { sender := pk, receiver := pk, amount := REWARD, comment := "Coinbase",
    nonce := nonce, signat := sig }

/-- The sampling loop of Miner._gather_transactions: with num_tx pending
attempts left, draw a sample of size num_tx from the pool (the sampler
oracle stands for random.sample), keep it if the balance check passes,
else decrement and retry; with num_tx equal to zero return the empty
selection. -/
def gatherLoop (bal : List (String × Int)) (sampler : Nat → List Tx) : Nat → List Tx
  | 0 => []
  | n + 1 =>
    if checkTransactionsBalance bal (sampler (n + 1)) then sampler (n + 1)
    else gatherLoop bal sampler n

/-- Miner._gather_transactions: a fresh coinbase paying REWARD from the
miner to itself, followed by the first balance-valid sample; the first
sample tried has the size of the whole pool (random.sample of that size
returns the whole pool in some order). -/
def gatherTransactions (pk nonce sig : String) (bal : List (String × Int))
    (pool : List Tx) (sampler : Nat → List Tx) : List Tx :=
  let coinbase := coinbaseTx pk nonce sig
  if pool = [] then [coinbase]
  else coinbase :: gatherLoop bal sampler pool.length

/-- Miner.get_balance: after _update (resolve the chain and rebuild the
balance from the best fork), return 0 for an identifier without an
account, the account balance otherwise. -/
def minerGetBalanceE (c : Ctx H) (s : ChainState H) (ident : String) : Except String Int :=
  match resolveE c s with
  | Except.error e => Except.error e
  | Except.ok last =>
    match getBalanceByForkE c s last with
    | Except.error e => Except.error e
    | Except.ok bal => Except.ok ((dget? bal ident).getD 0)

/-! Specification-side definitions, written from the spec text, used to
state claims against the embedded code. -/

/-- One application step as the mempool claims read it: create the missing
receiver account, debit the sender, credit the receiver (this is exactly
the update _check_transactions_balance performs when it does not fail). -/
def applySimple (bal : List (String × Int)) (t : Tx) : List (String × Int) :=
  let bal1 := ensureKey bal t.receiver
  let bal2 := dset bal1 t.sender ((dget? bal1 t.sender).getD 0 - t.amount)
  dset bal2 t.receiver ((dget? bal2 t.receiver).getD 0 + t.amount)

def allNonneg (bal : List (String × Int)) : Bool :=
  bal.all (fun kv => decide (0 ≤ kv.2))

/-- No participant's balance is negative after any prefix of the
transaction list has been applied. -/
def noNegDuring (bal : List (String × Int)) : List Tx → Prop
  | [] => True
  | t :: ts => allNonneg (applySimple bal t) = true ∧ noNegDuring (applySimple bal t) ts

/-- Some account is negative after some intermediate step of replaying the
transactions of one block, starting the intra-block index at i. -/
def anyNegDuringTxs (bal : List (String × Int)) : Nat → List Tx → Bool
  | _, [] => false
  | i, t :: ts => anyNegative (applyTxBal bal i t) || anyNegDuringTxs (applyTxBal bal i t) (i + 1) ts

/-- Some account is negative at some intermediate step of replaying a list
of blocks in the given order. -/
def anyNegDuringBlocks (bal : List (String × Int)) : List (BlockC H) → Bool
  | [] => false
  | b :: rest => anyNegDuringTxs bal 0 b.transactions || anyNegDuringBlocks (applyBlockBal bal b) rest

/-- The net effect of one transaction (applied at intra-block index i) on
the account k, as an integer delta. -/
def txDelta (i : Nat) (t : Tx) (k : String) : Int :=
  if i = 0 ∧ t.sender = t.receiver then (if k = t.receiver then t.amount else 0)
  else (if k = t.receiver then t.amount else 0) - (if k = t.sender then t.amount else 0)

def txsDelta : Nat → List Tx → String → Int
  | _, [], _ => 0
  | i, t :: ts, k => txDelta i t k + txsDelta (i + 1) ts k

def blockDelta (b : BlockC H) (k : String) : Int :=
  txsDelta 0 b.transactions k

/-! The chain-store invariant.  Everything is stated decidably so that a
concrete store can be checked by evaluation. -/

/-- Recorded tip length against the actual backward walk: look the tip's
block up and measure the walk from its prev_hash. -/
def tipWalkLenE (c : Ctx H) (s : ChainState H) (k : H) : Except String Nat :=
  match dget? s.hashBlockMap k with
  | none => Except.error "tip not in block map"
  | some b => (walkE c s.hashBlockMap (walkFuel s.hashBlockMap) b.header.prev_hash).map List.length

/-- Invariant of the chain store: dict keys are the header hashes of their
blocks and are duplicate-free; the genesis sentinel is no key; the genesis
block sits under its hash; every stored block is the genesis block or has
its prev_hash as a key; the walk of every stored block terminates; every
end-block key is a key of the block map, its recorded length is the length
of the backward walk; the end-block map is non-empty with duplicate-free
keys. -/
abbrev Inv (c : Ctx H) (s : ChainState H) : Prop :=
  (∀ kv ∈ s.hashBlockMap, kv.1 = c.hashH kv.2.header) ∧
  (s.hashBlockMap.map Prod.fst).Nodup ∧
  dget? s.hashBlockMap c.gprev = none ∧
  dget? s.hashBlockMap (c.hashH (genesisHeaderC c)) = some (genesisBlockC c) ∧
  (∀ kv ∈ s.hashBlockMap, kv.2 = genesisBlockC c ∨ dcontains s.hashBlockMap kv.2.header.prev_hash = true) ∧
  (∀ kv ∈ s.hashBlockMap,
    (walkE c s.hashBlockMap (walkFuel s.hashBlockMap) kv.2.header.prev_hash).isOk = true) ∧
  (∀ kn ∈ s.endhashClenMap, dcontains s.hashBlockMap kn.1 = true) ∧
  (∀ kn ∈ s.endhashClenMap, tipWalkLenE c s kn.1 = Except.ok kn.2) ∧
  s.endhashClenMap ≠ [] ∧
  (s.endhashClenMap.map Prod.fst).Nodup

/-- The admissibility condition of one add step with respect to the hash
oracle: the header hash of the added block is not the genesis sentinel,
and if it collides with a stored key then the stored block has the very
same header (content addressing; automatic for an injective hash). -/
def freshOkB (c : Ctx H) (s : ChainState H) (b : BlockC H) : Bool :=
  decide (c.hashH b.header ≠ c.gprev) &&
  (match dget? s.hashBlockMap (c.hashH b.header) with
   | none => true
   | some b0 => decide (b0.header = b.header))

/-! Concrete instances used by witnesses and counterexamples.  Header
hashes are drawn from Nat; the hash oracle maps the handful of headers
that occur to distinct small numbers, the genesis sentinel is 0. -/

deriving instance DecidableEq for Except

def gHdrW : HeaderC Nat :=
  { prev_hash := 0, root := fs64, timestamp := 1337, nonce := zeros64 }

def b1HdrW : HeaderC Nat :=
  { prev_hash := 1, root := fs64, timestamp := 2000, nonce := zeros64 }

def b2HdrW : HeaderC Nat :=
  { prev_hash := 2, root := fs64, timestamp := 3000, nonce := zeros64 }

def c1HdrW : HeaderC Nat :=
  { prev_hash := 1, root := fs64, timestamp := 1500, nonce := zeros64 }

def bC4HdrW : HeaderC Nat :=
  { prev_hash := 1, root := fs64, timestamp := 2200, nonce := zeros64 }

/-- A coinbase transaction of the witness miner M, distinguished by its
nonce. -/
def cbW (n : String) : Tx :=
  { sender := "M", receiver := "M", amount := 100, comment := "Coinbase",
    nonce := n, signat := "s" }

def txAMW : Tx :=
  { sender := "A", receiver := "M", amount := 5, comment := "", nonce := "a", signat := "s" }

def txMAW : Tx :=
  { sender := "M", receiver := "A", amount := 10, comment := "", nonce := "b", signat := "s" }

def txABW : Tx :=
  { sender := "A", receiver := "B", amount := 5, comment := "", nonce := "c", signat := "s" }

def b1W : BlockC Nat := { header := b1HdrW, transactions := [cbW "1"] }

def b2W : BlockC Nat := { header := b2HdrW, transactions := [cbW "2"] }

def c1W : BlockC Nat := { header := c1HdrW, transactions := [cbW "3"] }

/-- The block of the C4 counterexample: its coinbase credits M, then A
sends 5 to M while A still has nothing (the intermediate balance of A is
minus five), then M sends 10 back so that every final balance is
non-negative. -/
def bC4W : BlockC Nat := { header := bC4HdrW, transactions := [cbW "4", txAMW, txMAW] }

def hashW : HeaderC Nat → Nat :=
  fun hd =>
    if hd = gHdrW then 1
    else if hd = b1HdrW then 2
    else if hd = b2HdrW then 3
    else if hd = c1HdrW then 4
    else if hd = bC4HdrW then 5
    else 6

def cW : Ctx Nat :=
  { hashH := hashW, gprev := 0, hval := fun h => h, selfOk := fun _ => true }

/-- The store holding genesis and one block. -/
def s1W : ChainState Nat :=
  { hashBlockMap := [(1, genesisBlockC cW), (2, b1W)], endhashClenMap := [(2, 1)] }

/-- The store holding the chain genesis, b1, b2. -/
def s2W : ChainState Nat :=
  { hashBlockMap := [(1, genesisBlockC cW), (2, b1W), (3, b2W)],
    endhashClenMap := [(3, 2)] }

/-- A store with two forks of different lengths: the chain through b1 and
b2, and the single fork block c1 hanging off genesis. -/
def sForkW : ChainState Nat :=
  { hashBlockMap := [(1, genesisBlockC cW), (2, b1W), (3, b2W), (4, c1W)],
    endhashClenMap := [(3, 2), (4, 1)] }

/-- The store of the C4 counterexample: genesis and the block bC4W. -/
def sC4W : ChainState Nat :=
  { hashBlockMap := [(1, genesisBlockC cW), (2, bC4W)], endhashClenMap := [(2, 1)] }

def balW : List (String × Int) := [("A", 10)]

/-- A hash oracle for BlockS blocks that maps every header below TARGET,
so that the header-hash check of Block.verify passes. -/
def hashZW : HeaderS → String := fun _ => zeros64

/-- A transaction parser oracle; never reached in the C2 evaluation. -/
def parseStubW : String → Except String Tx := fun _ => Except.error "parser stub"

def txTrueW : Tx → Bool := fun _ => true

/-- A non-genesis block with one transaction, whose header hash is below
TARGET under hashZW: every condition the claim lists up to the Merkle root
computation is satisfiable, yet verify raises TypeError inside
MerkleTree._hash_items. -/
def blockC2W : BlockS :=
  { header := { prev_hash := zeros64, root := fs64, timestamp := 2000, nonce := zeros64 },
    transactions := ["t"] }

/-- The witness context carrying the faithful self-verification verdicts:
Block.verify returns True on the genesis block (whose transaction list is
empty) and raises inside MerkleTree._hash_items for every block with
transactions, so the self check holds exactly for blocks without
transactions. -/
def cF8W : Ctx Nat :=
  { hashH := hashW, gprev := 0, hval := fun h => h,
    selfOk := fun b => decide (b.transactions = []) }

/-- The store the legacy resolve leaves behind on sForkW: the losing fork
block c1W is pruned and the end blocks are reset to the winner. -/
def sPrunedW : ChainState Nat :=
  { hashBlockMap := [(3, b2W), (2, b1W), (1, genesisBlockC cW)],
    endhashClenMap := [(3, 2)] }

/-- A hash type with a genuinely injective hash oracle, used to witness
the reachability form of the chain-store invariant: a hash is either the
genesis sentinel or the (injective) image of the four header fields. -/
inductive HashT : Type where
  | sentinel : HashT
  | node : HashT → String → Int → String → HashT
  deriving DecidableEq, Repr

def hashTF (hd : HeaderC HashT) : HashT :=
  HashT.node hd.prev_hash hd.root hd.timestamp hd.nonce

def cT : Ctx HashT :=
  { hashH := hashTF, gprev := HashT.sentinel, hval := fun _ => 0, selfOk := fun _ => true }

/-- A first block over HashT, child of genesis. -/
def b1T : BlockC HashT :=
  { header := { prev_hash := hashTF (genesisHeaderC cT), root := fs64,
                timestamp := 2000, nonce := zeros64 },
    transactions := [cbW "1"] }

/-- The store reached from Blockchain.new() over HashT by adding b1T. -/
def sT1 : ChainState HashT :=
  { hashBlockMap := [(hashTF (genesisHeaderC cT), genesisBlockC cT),
                     (hashTF b1T.header, b1T)],
    endhashClenMap := [(hashTF b1T.header, 1)] }

/-! Lemmas about the dict primitives. -/

theorem dget?_dset_self {K V : Type} [DecidableEq K] (m : List (K × V)) (k : K) (v : V) :
    dget? (dset m k v) k = some v := by
  induction m with
  | nil => simp [dset, dget?]
  | cons kv rest ih =>
    by_cases h : kv.1 = k
    · simp [dset, h, dget?]
    · simp [dset, h, dget?, ih]

theorem dget?_dset_ne {K V : Type} [DecidableEq K] (m : List (K × V)) (k k2 : K) (v : V)
    (h : k2 ≠ k) : dget? (dset m k v) k2 = dget? m k2 := by
  have h2 : ¬ (k = k2) := fun e => h e.symm
  induction m with
  | nil => simp [dset, dget?, h2]
  | cons kv rest ih =>
    by_cases hk : kv.1 = k
    · rw [dset, if_pos hk, dget?, if_neg (fun e => h2 e), dget?, hk,
        if_neg (fun e => h2 e)]
    · rw [dset, if_neg hk, dget?, dget?]
      by_cases h2 : kv.1 = k2
      · simp [h2]
      · simp [h2, ih]

theorem dset_eq_of_dget {K V : Type} [DecidableEq K] (m : List (K × V)) (k : K) (v : V)
    (h : dget? m k = some v) : dset m k v = m := by
  induction m with
  | nil => simp [dget?] at h
  | cons kv rest ih =>
    by_cases hk : kv.1 = k
    · rw [dget?, if_pos hk] at h
      have : kv = (k, v) := by
        cases kv
        simp at hk
        simp at h
        simp [hk, h]
      rw [dset, if_pos hk, this]
    · rw [dget?, if_neg hk] at h
      rw [dset, if_neg hk, ih h]

theorem dset_fresh {K V : Type} [DecidableEq K] (m : List (K × V)) (k : K) (v : V)
    (h : dget? m k = none) : dset m k v = m ++ [(k, v)] := by
  induction m with
  | nil => simp [dset]
  | cons kv rest ih =>
    by_cases hk : kv.1 = k
    · rw [dget?, if_pos hk] at h
      exact absurd h (by simp)
    · rw [dget?, if_neg hk] at h
      rw [dset, if_neg hk, ih h]
      simp

theorem dget?_mem {K V : Type} [DecidableEq K] {m : List (K × V)} {k : K} {v : V}
    (h : dget? m k = some v) : (k, v) ∈ m := by
  induction m with
  | nil => simp [dget?] at h
  | cons kv rest ih =>
    by_cases hk : kv.1 = k
    · rw [dget?, if_pos hk] at h
      cases kv
      simp at hk h
      simp [hk, h]
    · rw [dget?, if_neg hk] at h
      exact List.mem_cons_of_mem _ (ih h)

theorem dget?_eq_none_iff {K V : Type} [DecidableEq K] (m : List (K × V)) (k : K) :
    dget? m k = none ↔ k ∉ m.map Prod.fst := by
  induction m with
  | nil => simp [dget?]
  | cons kv rest ih =>
    by_cases hk : kv.1 = k
    · simp [dget?, hk]
    · have hk2 : ¬ k = kv.1 := fun e => hk e.symm
      simp [dget?, hk, ih, hk2]

theorem mem_dget {K V : Type} [DecidableEq K] {m : List (K × V)} {k : K} {v : V}
    (hnd : (m.map Prod.fst).Nodup) (h : (k, v) ∈ m) : dget? m k = some v := by
  induction m with
  | nil => simp at h
  | cons kv rest ih =>
    rw [List.map_cons, List.nodup_cons] at hnd
    rcases List.mem_cons.mp h with h1 | h1
    · rw [← h1, dget?, if_pos rfl]
    · have hk : kv.1 ≠ k := by
        intro e
        exact hnd.1 (e ▸ (List.mem_map.mpr ⟨(k, v), h1, rfl⟩))
      rw [dget?, if_neg hk]
      exact ih hnd.2 h1

theorem keys_dset_of_mem {K V : Type} [DecidableEq K] (m : List (K × V)) (k : K) (v v0 : V)
    (h : dget? m k = some v0) : (dset m k v).map Prod.fst = m.map Prod.fst := by
  induction m with
  | nil => simp [dget?] at h
  | cons kv rest ih =>
    by_cases hk : kv.1 = k
    · rw [dset, if_pos hk]
      simp [hk]
    · rw [dget?, if_neg hk] at h
      rw [dset, if_neg hk, List.map_cons, List.map_cons, ih h]

theorem length_dset_of_mem {K V : Type} [DecidableEq K] (m : List (K × V)) (k : K) (v v0 : V)
    (h : dget? m k = some v0) : (dset m k v).length = m.length := by
  have := keys_dset_of_mem m k v v0 h
  have h1 : ((dset m k v).map Prod.fst).length = (m.map Prod.fst).length := by rw [this]
  simpa using h1

theorem keys_dset_fresh {K V : Type} [DecidableEq K] (m : List (K × V)) (k : K) (v : V)
    (h : dget? m k = none) : (dset m k v).map Prod.fst = m.map Prod.fst ++ [k] := by
  rw [dset_fresh m k v h]
  simp

theorem nodup_keys_dset {K V : Type} [DecidableEq K] (m : List (K × V)) (k : K) (v : V)
    (hnd : (m.map Prod.fst).Nodup) : ((dset m k v).map Prod.fst).Nodup := by
  cases h : dget? m k with
  | none =>
    rw [keys_dset_fresh m k v h]
    have hk : k ∉ m.map Prod.fst := (dget?_eq_none_iff m k).mp h
    have hdisj : (m.map Prod.fst).Disjoint [k] := by
      intro a ha hb
      rw [List.mem_singleton] at hb
      exact hk (hb ▸ ha)
    exact List.Nodup.append hnd (List.nodup_singleton k) hdisj
  | some v0 =>
    rw [keys_dset_of_mem m k v v0 h]
    exact hnd

theorem dset_ne_nil {K V : Type} [DecidableEq K] (m : List (K × V)) (k : K) (v : V) :
    dset m k v ≠ [] := by
  cases m with
  | nil => simp [dset]
  | cons kv rest =>
    rw [dset]
    by_cases hk : kv.1 = k
    · simp [hk]
    · simp [hk]

theorem dget?_dpop_self {K V : Type} [DecidableEq K] (m : List (K × V)) (k : K)
    (hnd : (m.map Prod.fst).Nodup) : dget? (dpop m k) k = none := by
  induction m with
  | nil => simp [dpop, dget?]
  | cons kv rest ih =>
    rw [List.map_cons, List.nodup_cons] at hnd
    by_cases hk : kv.1 = k
    · rw [dpop, if_pos hk, dget?_eq_none_iff]
      intro hmem
      exact hnd.1 (hk ▸ hmem)
    · rw [dpop, if_neg hk, dget?, if_neg hk]
      exact ih hnd.2

theorem dget?_dpop_ne {K V : Type} [DecidableEq K] (m : List (K × V)) (k k2 : K)
    (h : k2 ≠ k) : dget? (dpop m k) k2 = dget? m k2 := by
  induction m with
  | nil => simp [dpop]
  | cons kv rest ih =>
    by_cases hk : kv.1 = k
    · rw [dpop, if_pos hk, dget?, if_neg (hk ▸ fun e => h e.symm)]
    · rw [dpop, if_neg hk, dget?, dget?]
      by_cases h2 : kv.1 = k2
      · simp [h2]
      · simp [h2, ih]

theorem mem_dpop {K V : Type} [DecidableEq K] {m : List (K × V)} {k : K} {kv : K × V}
    (h : kv ∈ dpop m k) : kv ∈ m := by
  induction m with
  | nil => simp [dpop] at h
  | cons kv0 rest ih =>
    by_cases hk : kv0.1 = k
    · rw [dpop, if_pos hk] at h
      exact List.mem_cons_of_mem _ h
    · rw [dpop, if_neg hk] at h
      rcases List.mem_cons.mp h with h1 | h1
      · exact h1 ▸ List.mem_cons_self _ _
      · exact List.mem_cons_of_mem _ (ih h1)

theorem keys_dpop_sublist {K V : Type} [DecidableEq K] (m : List (K × V)) (k : K) :
    ((dpop m k).map Prod.fst).Sublist (m.map Prod.fst) := by
  induction m with
  | nil => simp [dpop]
  | cons kv rest ih =>
    by_cases hk : kv.1 = k
    · rw [dpop, if_pos hk, List.map_cons]
      exact List.sublist_cons_of_sublist _ (List.Sublist.refl _)
    · rw [dpop, if_neg hk, List.map_cons, List.map_cons]
      exact List.Sublist.cons₂ _ ih

theorem nodup_keys_dpop {K V : Type} [DecidableEq K] (m : List (K × V)) (k : K)
    (hnd : (m.map Prod.fst).Nodup) : ((dpop m k).map Prod.fst).Nodup :=
  (keys_dpop_sublist m k).nodup hnd

theorem dcontains_iff {K V : Type} [DecidableEq K] (m : List (K × V)) (k : K) :
    dcontains m k = true ↔ ∃ v, dget? m k = some v := by
  rw [dcontains, Option.isSome_iff_exists]

/-! Lemmas about findByHash and the backward chain walk. -/

theorem except_map_ok {A B : Type} (f : A → B) (a : A) :
    Except.map f (Except.ok a : Except String A) = Except.ok (f a) := rfl

theorem except_map_error {A B : Type} (f : A → B) (e : String) :
    Except.map f (Except.error e : Except String A) = Except.error e := rfl

theorem findByHash_eq_dget {c : Ctx H} {bs : List (H × BlockC H)}
    (hkh : ∀ kv ∈ bs, kv.1 = c.hashH kv.2.header) (h : H) :
    findByHash c bs h = dget? bs h := by
  induction bs with
  | nil => rfl
  | cons kv rest ih =>
    have hk : kv.1 = c.hashH kv.2.header := hkh kv (List.mem_cons_self _ _)
    have ih2 := ih (fun kv2 hm => hkh kv2 (List.mem_cons_of_mem _ hm))
    rw [findByHash, dget?, ← hk, ih2]

theorem find_hash_of_some {c : Ctx H} {bs : List (H × BlockC H)} {h : H} {b : BlockC H}
    (hf : findByHash c bs h = some b) : c.hashH b.header = h := by
  induction bs with
  | nil => simp [findByHash] at hf
  | cons kv rest ih =>
    rw [findByHash] at hf
    by_cases hc : c.hashH kv.2.header = h
    · rw [if_pos hc] at hf
      cases hf
      exact hc
    · rw [if_neg hc] at hf
      exact ih hf

theorem find_mem {c : Ctx H} {bs : List (H × BlockC H)}
    (hkh : ∀ kv ∈ bs, kv.1 = c.hashH kv.2.header) {h : H} {b : BlockC H}
    (hf : findByHash c bs h = some b) : (h, b) ∈ bs := by
  rw [findByHash_eq_dget hkh] at hf
  exact dget?_mem hf

theorem findByHash_append {c : Ctx H} {bs : List (H × BlockC H)} {h : H} {b : BlockC H}
    (hf : findByHash c bs h = some b) (tl : List (H × BlockC H)) :
    findByHash c (bs ++ tl) h = some b := by
  induction bs with
  | nil => simp [findByHash] at hf
  | cons kv rest ih =>
    rw [findByHash] at hf
    rw [List.cons_append, findByHash]
    by_cases hc : c.hashH kv.2.header = h
    · rw [if_pos hc] at hf ⊢
      exact hf
    · rw [if_neg hc] at hf ⊢
      exact ih hf

/-- Step equation of the walk at the genesis sentinel. -/
theorem walkE_succ_gprev {c : Ctx H} {bs : List (H × BlockC H)} {f : Nat} {ph : H}
    (hg : ph = c.gprev) : walkE c bs (f + 1) ph = Except.ok [] := by
  rw [walkE, if_pos hg]

/-- Step equation of the walk when the hash resolves. -/
theorem walkE_succ_found {c : Ctx H} {bs : List (H × BlockC H)} {f : Nat} {ph : H}
    {blk : BlockC H} (hg : ¬ ph = c.gprev) (hf : findByHash c bs ph = some blk) :
    walkE c bs (f + 1) ph =
      (walkE c bs f blk.header.prev_hash).map (fun l => blk :: l) := by
  rw [walkE, if_neg hg, hf]

/-- Step equation of the walk when the hash does not resolve (the source
loop spins forever). -/
theorem walkE_succ_none {c : Ctx H} {bs : List (H × BlockC H)} {f : Nat} {ph : H}
    (hg : ¬ ph = c.gprev) (hf : findByHash c bs ph = none) :
    walkE c bs (f + 1) ph = Except.error "unbounded loop in chain walk" := by
  rw [walkE, if_neg hg, hf]

/-- Destruct one successful walk step. -/
theorem walk_ok_succ {c : Ctx H} {bs : List (H × BlockC H)} {f : Nat} {ph : H}
    {l : List (BlockC H)} (h : walkE c bs (f + 1) ph = Except.ok l) :
    (ph = c.gprev ∧ l = []) ∨
      (¬ ph = c.gprev ∧ ∃ blk l2, findByHash c bs ph = some blk ∧
        walkE c bs f blk.header.prev_hash = Except.ok l2 ∧ l = blk :: l2) := by
  by_cases hg : ph = c.gprev
  · rw [walkE_succ_gprev hg] at h
    cases h
    exact Or.inl ⟨hg, rfl⟩
  · cases hf : findByHash c bs ph with
    | none =>
      rw [walkE_succ_none hg hf] at h
      cases h
    | some blk =>
      rw [walkE_succ_found hg hf] at h
      cases hw : walkE c bs f blk.header.prev_hash with
      | error e =>
        rw [hw, except_map_error] at h
        cases h
      | ok l2 =>
        rw [hw, except_map_ok] at h
        cases h
        exact Or.inr ⟨hg, blk, l2, rfl, hw, rfl⟩

theorem walk_mono {c : Ctx H} {bs : List (H × BlockC H)} :
    ∀ (f : Nat) {ph : H} {l : List (BlockC H)} (f2 : Nat),
      walkE c bs f ph = Except.ok l → f ≤ f2 → walkE c bs f2 ph = Except.ok l := by
  intro f
  induction f with
  | zero =>
    intro ph l f2 h _
    simp [walkE] at h
  | succ f ih =>
    intro ph l f2 h hle
    obtain ⟨f3, rfl⟩ : ∃ f3, f2 = f3 + 1 := ⟨f2 - 1, by omega⟩
    rcases walk_ok_succ h with ⟨hg, rfl⟩ | ⟨hg, blk, l2, hf, hw, rfl⟩
    · exact walkE_succ_gprev hg
    · rw [walkE_succ_found hg hf, ih f3 hw (by omega), except_map_ok]

theorem walk_det {c : Ctx H} {bs : List (H × BlockC H)} {f1 f2 : Nat} {ph : H}
    {l1 l2 : List (BlockC H)} (h1 : walkE c bs f1 ph = Except.ok l1)
    (h2 : walkE c bs f2 ph = Except.ok l2) : l1 = l2 := by
  have e1 := walk_mono f1 (max f1 f2) h1 (Nat.le_max_left _ _)
  have e2 := walk_mono f2 (max f1 f2) h2 (Nat.le_max_right _ _)
  rw [e1] at e2
  cases e2
  rfl

theorem walk_exact {c : Ctx H} {bs : List (H × BlockC H)} :
    ∀ (f : Nat) {ph : H} {l : List (BlockC H)},
      walkE c bs f ph = Except.ok l → walkE c bs (l.length + 1) ph = Except.ok l := by
  intro f
  induction f with
  | zero =>
    intro ph l h
    simp [walkE] at h
  | succ f ih =>
    intro ph l h
    rcases walk_ok_succ h with ⟨hg, rfl⟩ | ⟨hg, blk, l2, hf, hw, rfl⟩
    · exact walkE_succ_gprev hg
    · have : (blk :: l2).length + 1 = l2.length + 1 + 1 := rfl
      rw [this, walkE_succ_found hg hf, ih hw, except_map_ok]

theorem walk_append {c : Ctx H} {bs : List (H × BlockC H)} (tl : List (H × BlockC H)) :
    ∀ (f : Nat) {ph : H} {l : List (BlockC H)},
      walkE c bs f ph = Except.ok l → walkE c (bs ++ tl) f ph = Except.ok l := by
  intro f
  induction f with
  | zero =>
    intro ph l h
    simp [walkE] at h
  | succ f ih =>
    intro ph l h
    rcases walk_ok_succ h with ⟨hg, rfl⟩ | ⟨hg, blk, l2, hf, hw, rfl⟩
    · exact walkE_succ_gprev hg
    · rw [walkE_succ_found hg (findByHash_append hf tl), ih hw, except_map_ok]

theorem findByHash_congr {c : Ctx H} {bs bs2 : List (H × BlockC H)}
    (hrel : List.Forall₂ (fun a b => a.2.header = b.2.header) bs bs2) (h : H) :
    (findByHash c bs h).map (fun b => b.header) =
      (findByHash c bs2 h).map (fun b => b.header) := by
  induction hrel with
  | nil => rfl
  | @cons a b l1 l2 hab hrest ih =>
    by_cases hc : c.hashH b.2.header = h
    · rw [findByHash, findByHash, hab, if_pos hc, if_pos hc]
      simp [hab]
    · rw [findByHash, findByHash, hab, if_neg hc, if_neg hc]
      exact ih

theorem walk_same_headers {c : Ctx H} {bs bs2 : List (H × BlockC H)}
    (hrel : List.Forall₂ (fun a b => a.2.header = b.2.header) bs bs2) :
    ∀ (f : Nat) (ph : H),
      (walkE c bs f ph).map (List.map (fun b => b.header)) =
        (walkE c bs2 f ph).map (List.map (fun b => b.header)) := by
  intro f
  induction f with
  | zero => intro ph; rfl
  | succ f ih =>
    intro ph
    by_cases hg : ph = c.gprev
    · rw [walkE_succ_gprev hg, walkE_succ_gprev hg]
    · have hfc := findByHash_congr (c := c) hrel ph
      cases hf1 : findByHash c bs ph with
      | none =>
        cases hf2 : findByHash c bs2 ph with
        | none => rw [walkE_succ_none hg hf1, walkE_succ_none hg hf2]
        | some b2 =>
          rw [hf1, hf2] at hfc
          simp at hfc
      | some b1 =>
        cases hf2 : findByHash c bs2 ph with
        | none =>
          rw [hf1, hf2] at hfc
          simp at hfc
        | some b2 =>
          rw [hf1, hf2] at hfc
          simp [Option.map] at hfc
          have hprev : b2.header.prev_hash = b1.header.prev_hash := by rw [hfc]
          rw [walkE_succ_found hg hf1, walkE_succ_found hg hf2, hprev]
          have hih := ih b1.header.prev_hash
          cases hw1 : walkE c bs f b1.header.prev_hash with
          | error e =>
            rw [hw1] at hih
            cases hw2 : walkE c bs2 f b1.header.prev_hash with
            | error e2 =>
              rw [hw2] at hih
              rw [except_map_error] at hih
              rw [except_map_error, except_map_error, except_map_error]
              exact hih
            | ok l2 =>
              rw [hw2, except_map_error, except_map_ok] at hih
              cases hih
          | ok l1 =>
            rw [hw1] at hih
            cases hw2 : walkE c bs2 f b1.header.prev_hash with
            | error e2 =>
              rw [hw2, except_map_ok, except_map_error] at hih
              cases hih
            | ok l2 =>
              rw [hw2, except_map_ok, except_map_ok] at hih
              have hml : List.map (fun b => b.header) l1 = List.map (fun b => b.header) l2 := by
                injection hih
              rw [except_map_ok, except_map_ok, except_map_ok, except_map_ok]
              rw [List.map_cons, List.map_cons, hfc, hml]

theorem walk_head_found {c : Ctx H} {bs : List (H × BlockC H)} {f : Nat} {ph : H}
    {x : BlockC H} {l2 : List (BlockC H)} (hw : walkE c bs f ph = Except.ok (x :: l2)) :
    findByHash c bs ph = some x := by
  cases f with
  | zero => simp [walkE] at hw
  | succ f =>
    rcases walk_ok_succ hw with ⟨_, he⟩ | ⟨_, blk, l3, hf, _, he⟩
    · cases he
    · cases he
      exact hf

theorem walk_suffix {c : Ctx H} {bs : List (H × BlockC H)} :
    ∀ (f : Nat) {ph : H} {l : List (BlockC H)} {x : BlockC H},
      walkE c bs f ph = Except.ok l → x ∈ l →
      ∃ f2 l2, f2 ≤ f ∧ walkE c bs f2 (c.hashH x.header) = Except.ok (x :: l2) ∧
        (x :: l2).length ≤ l.length := by
  intro f
  induction f with
  | zero =>
    intro ph l x h _
    simp [walkE] at h
  | succ f ih =>
    intro ph l x h hx
    rcases walk_ok_succ h with ⟨hg, rfl⟩ | ⟨hg, blk, l3, hf, hw, rfl⟩
    · simp at hx
    · rcases List.mem_cons.mp hx with h1 | h1
      · subst h1
        refine ⟨f + 1, l3, le_refl _, ?_, le_refl _⟩

        rw [find_hash_of_some hf]
        rw [walkE_succ_found hg hf, hw, except_map_ok]
      · obtain ⟨f2, l4, hle, hw4, hlen⟩ := ih hw h1
        refine ⟨f2, l4, by omega, hw4, ?_⟩
        simp at hlen ⊢
        omega

theorem walk_trace_nodup {c : Ctx H} {bs : List (H × BlockC H)} :
    ∀ (f : Nat) {ph : H} {l : List (BlockC H)},
      walkE c bs f ph = Except.ok l →
      (l.map (fun x => c.hashH x.header)).Nodup := by
  intro f
  induction f with
  | zero =>
    intro ph l h
    simp [walkE] at h
  | succ f ih =>
    intro ph l h
    rcases walk_ok_succ h with ⟨hg, rfl⟩ | ⟨hg, blk, l3, hf, hw, rfl⟩
    · simp
    · rw [List.map_cons, List.nodup_cons]
      refine ⟨?_, ih hw⟩
      intro hmem
      rw [List.mem_map] at hmem
      obtain ⟨x, hx, hhash⟩ := hmem
      have hph : c.hashH x.header = ph := by
        rw [hhash, find_hash_of_some hf]
      obtain ⟨f2, l4, _, hw4, hlen⟩ := walk_suffix f hw hx
      rw [hph] at hw4
      have hdet := walk_det h hw4
      have hlenEq : (blk :: l3).length = (x :: l4).length := by rw [hdet]
      simp at hlenEq hlen
      omega

theorem walk_length_le {c : Ctx H} {bs : List (H × BlockC H)}
    (hkh : ∀ kv ∈ bs, kv.1 = c.hashH kv.2.header) {f : Nat} {ph : H}
    {l : List (BlockC H)} (hw : walkE c bs f ph = Except.ok l) :
    l.length ≤ bs.length := by
  have hnd := walk_trace_nodup f hw
  have hsub : (l.map (fun x => c.hashH x.header)) ⊆ bs.map Prod.fst := by
    intro a ha
    rw [List.mem_map] at ha
    obtain ⟨x, hx, rfl⟩ := ha
    obtain ⟨f2, l2, _, hw2, _⟩ := walk_suffix f hw hx
    have hf := walk_head_found hw2
    have hm := find_mem hkh hf
    exact List.mem_map.mpr ⟨(c.hashH x.header, x), hm, rfl⟩
  have hsp := List.subperm_of_subset hnd hsub
  have hle := hsp.length_le
  simpa using hle

/-! Lemmas about balance maps. -/

theorem lookupD_dset (bal : List (String × Int)) (k k2 : String) (v : Int) :
    lookupD (dset bal k v) k2 = if k2 = k then v else lookupD bal k2 := by
  by_cases h : k2 = k
  · rw [if_pos h, h, lookupD, dget?_dset_self]
    rfl
  · rw [if_neg h, lookupD, dget?_dset_ne bal k k2 v h, lookupD]

theorem lookupD_ensure (bal : List (String × Int)) (k k2 : String) :
    lookupD (ensureKey bal k2) k = lookupD bal k := by
  rw [ensureKey]
  by_cases h : dcontains bal k2
  · rw [if_pos h]
  · rw [if_neg h]
    rw [lookupD_dset]
    by_cases hk : k = k2
    · rw [if_pos hk, hk]
      have hnone : dget? bal k2 = none := by
        rw [dcontains] at h
        cases hd : dget? bal k2 with
        | none => rfl
        | some v =>
          rw [hd] at h
          simp at h
      rw [lookupD, hnone]
      rfl
    · rw [if_neg hk]

theorem nodup_keys_ensure (bal : List (String × Int)) (k : String)
    (h : (bal.map Prod.fst).Nodup) : ((ensureKey bal k).map Prod.fst).Nodup := by
  rw [ensureKey]
  by_cases hc : dcontains bal k
  · rw [if_pos hc]
    exact h
  · rw [if_neg hc]
    exact nodup_keys_dset bal k 0 h

theorem nodup_keys_applyTxBal (bal : List (String × Int)) (i : Nat) (t : Tx)
    (h : (bal.map Prod.fst).Nodup) : ((applyTxBal bal i t).map Prod.fst).Nodup := by
  rw [applyTxBal]
  by_cases hc : i = 0 ∧ t.sender = t.receiver
  · rw [if_pos hc]
    exact nodup_keys_dset _ _ _ (nodup_keys_ensure _ _ (nodup_keys_ensure _ _ h))
  · rw [if_neg hc]
    exact nodup_keys_dset _ _ _
      (nodup_keys_dset _ _ _ (nodup_keys_ensure _ _ (nodup_keys_ensure _ _ h)))

theorem nodup_keys_applyTxsBal :
    ∀ (ts : List Tx) (bal : List (String × Int)) (i : Nat),
      (bal.map Prod.fst).Nodup → ((applyTxsBal bal i ts).map Prod.fst).Nodup := by
  intro ts
  induction ts with
  | nil =>
    intro bal i h
    exact h
  | cons t ts ih =>
    intro bal i h
    rw [applyTxsBal]
    exact ih _ _ (nodup_keys_applyTxBal bal i t h)

theorem nodup_keys_applyBlockBal (bal : List (String × Int)) (b : BlockC H)
    (h : (bal.map Prod.fst).Nodup) : ((applyBlockBal bal b).map Prod.fst).Nodup :=
  nodup_keys_applyTxsBal b.transactions bal 0 h

theorem nodup_keys_foldl_blocks :
    ∀ (blks : List (BlockC H)) (bal : List (String × Int)),
      (bal.map Prod.fst).Nodup → ((blks.foldl applyBlockBal bal).map Prod.fst).Nodup := by
  intro blks
  induction blks with
  | nil =>
    intro bal h
    exact h
  | cons b rest ih =>
    intro bal h
    rw [List.foldl_cons]
    exact ih _ (nodup_keys_applyBlockBal bal b h)

theorem lookupD_applyTxBal (bal : List (String × Int)) (i : Nat) (t : Tx) (k : String) :
    lookupD (applyTxBal bal i t) k = lookupD bal k + txDelta i t k := by
  rw [applyTxBal, txDelta]
  by_cases hc : i = 0 ∧ t.sender = t.receiver
  · rw [if_pos hc, if_pos hc, lookupD_dset]
    by_cases hk : k = t.receiver
    · rw [if_pos hk, if_pos hk]
      have h2 : (dget? (ensureKey (ensureKey bal t.sender) t.receiver) t.receiver).getD 0
          = lookupD bal t.receiver := by
        rw [show ∀ (b : List (String × Int)) (x : String), (dget? b x).getD 0 = lookupD b x
          from fun b x => rfl, lookupD_ensure, lookupD_ensure]
      rw [h2, hk]
    · rw [if_neg hk, if_neg hk, lookupD_ensure, lookupD_ensure]
      omega
  · rw [if_neg hc, if_neg hc]
    have hgd : ∀ (b : List (String × Int)) (x : String), (dget? b x).getD 0 = lookupD b x :=
      fun b x => rfl
    rw [lookupD_dset]
    by_cases hk : k = t.receiver
    · rw [if_pos hk, if_pos hk, hgd, lookupD_dset]
      by_cases hs : t.receiver = t.sender
      · rw [if_pos hs, hgd, lookupD_ensure, lookupD_ensure, hk, hs]
        have hks : t.sender = t.sender := rfl
        rw [if_pos hks]
        omega
      · rw [if_neg hs, lookupD_ensure, lookupD_ensure, hk]
        by_cases hks : t.receiver = t.sender
        · exact absurd hks hs
        · rw [if_neg hks]
          omega
    · rw [if_neg hk, lookupD_dset]
      by_cases hks : k = t.sender
      · rw [if_pos hks, if_neg hk, if_pos hks, hgd, lookupD_ensure, lookupD_ensure, hks]
        omega
      · rw [if_neg hks, if_neg hk, if_neg hks, lookupD_ensure, lookupD_ensure]
        omega

theorem lookupD_applyTxsBal :
    ∀ (ts : List Tx) (bal : List (String × Int)) (i : Nat) (k : String),
      lookupD (applyTxsBal bal i ts) k = lookupD bal k + txsDelta i ts k := by
  intro ts
  induction ts with
  | nil =>
    intro bal i k
    rw [applyTxsBal, txsDelta]
    omega
  | cons t ts ih =>
    intro bal i k
    rw [applyTxsBal, txsDelta, ih, lookupD_applyTxBal]
    omega

theorem lookupD_applyBlockBal (bal : List (String × Int)) (b : BlockC H) (k : String) :
    lookupD (applyBlockBal bal b) k = lookupD bal k + blockDelta b k :=
  lookupD_applyTxsBal b.transactions bal 0 k

theorem lookupD_foldl_blocks :
    ∀ (blks : List (BlockC H)) (bal : List (String × Int)) (k : String),
      lookupD (blks.foldl applyBlockBal bal) k =
        lookupD bal k + (blks.map (fun b => blockDelta b k)).sum := by
  intro blks
  induction blks with
  | nil =>
    intro bal k
    simp
  | cons b rest ih =>
    intro bal k
    rw [List.foldl_cons, ih, lookupD_applyBlockBal]
    simp
    omega

/-- The final balance map does not depend on the order in which the blocks
are replayed: replaying them tip first (as the source does) and genesis
first gives pointwise the same balances. -/
theorem lookupD_foldl_reverse (blks : List (BlockC H)) (bal : List (String × Int))
    (k : String) :
    lookupD (blks.foldl applyBlockBal bal) k =
      lookupD (blks.reverse.foldl applyBlockBal bal) k := by
  rw [lookupD_foldl_blocks, lookupD_foldl_blocks, List.map_reverse, List.sum_reverse]

theorem anyNegative_iff_lookupD (bal : List (String × Int))
    (hnd : (bal.map Prod.fst).Nodup) :
    anyNegative bal = true ↔ ∃ k, lookupD bal k < 0 := by
  rw [anyNegative, List.any_eq_true]
  constructor
  · rintro ⟨kv, hmem, hneg⟩
    refine ⟨kv.1, ?_⟩
    have := mem_dget hnd (m := bal) (k := kv.1) (v := kv.2) (by cases kv; exact hmem)
    rw [lookupD, this]
    simpa using hneg
  · rintro ⟨k, hk⟩
    rw [lookupD] at hk
    cases hd : dget? bal k with
    | none =>
      rw [hd] at hk
      simp at hk
    | some v =>
      rw [hd] at hk
      refine ⟨(k, v), dget?_mem hd, ?_⟩
      simpa using hk

theorem allNonneg_iff_lookupD (bal : List (String × Int))
    (hnd : (bal.map Prod.fst).Nodup) :
    allNonneg bal = true ↔ ∀ k, 0 ≤ lookupD bal k := by
  rw [allNonneg, List.all_eq_true]
  constructor
  · intro hall k
    rw [lookupD]
    cases hd : dget? bal k with
    | none => simp
    | some v =>
      have := hall (k, v) (dget?_mem hd)
      simpa using this
  · intro hall kv hmem
    have := mem_dget hnd (m := bal) (k := kv.1) (v := kv.2) (by cases kv; exact hmem)
    have h2 := hall kv.1
    rw [lookupD, this] at h2
    simpa using h2

/-! Lemmas about the mempool balance check and the gather loop. -/

theorem nodup_keys_applySimple (bal : List (String × Int)) (t : Tx)
    (h : (bal.map Prod.fst).Nodup) : ((applySimple bal t).map Prod.fst).Nodup := by
  rw [applySimple]
  exact nodup_keys_dset _ _ _ (nodup_keys_dset _ _ _ (nodup_keys_ensure _ _ h))

theorem lookupD_applySimple (bal : List (String × Int)) (t : Tx) (k : String) :
    lookupD (applySimple bal t) k =
      lookupD bal k +
        ((if k = t.receiver then t.amount else 0) - (if k = t.sender then t.amount else 0)) := by
  rw [applySimple]
  have hgd : ∀ (b : List (String × Int)) (x : String), (dget? b x).getD 0 = lookupD b x :=
    fun b x => rfl
  rw [lookupD_dset]
  by_cases hk : k = t.receiver
  · rw [if_pos hk, if_pos hk, hgd, lookupD_dset]
    by_cases hs : t.receiver = t.sender
    · rw [if_pos hs, hgd, lookupD_ensure, hk, hs]
      have : t.sender = t.sender := rfl
      rw [if_pos this]
      omega
    · rw [if_neg hs, lookupD_ensure, hk]
      by_cases hks : t.receiver = t.sender
      · exact absurd hks hs
      · rw [if_neg hks]
        omega
  · rw [if_neg hk, lookupD_dset]
    by_cases hks : k = t.sender
    · rw [if_pos hks, if_neg hk, if_pos hks, hgd, lookupD_ensure, hks]
      omega
    · rw [if_neg hks, if_neg hk, if_neg hks, lookupD_ensure]
      omega

/-- The recursion equation of _check_transactions_balance, with the balance
update folded into applySimple. -/
theorem check_cons_eq (bal : List (String × Int)) (t : Tx) (ts : List Tx) :
    checkTransactionsBalance bal (t :: ts) =
      match dget? bal t.sender with
      | none => false
      | some _ =>
        if lookupD (applySimple bal t) t.sender < 0 ∨
            lookupD (applySimple bal t) t.receiver < 0 then false
        else checkTransactionsBalance (applySimple bal t) ts := rfl

/-- Soundness of the balance check: starting from a non-negative balance,
if _check_transactions_balance succeeds then no account is negative after
any prefix of the transactions has been applied. -/
theorem check_sound :
    ∀ (ts : List Tx) (bal : List (String × Int)),
      (bal.map Prod.fst).Nodup → allNonneg bal = true →
      checkTransactionsBalance bal ts = true → noNegDuring bal ts := by
  intro ts
  induction ts with
  | nil =>
    intro bal _ _ _
    trivial
  | cons t ts ih =>
    intro bal hnd hnn hck
    rw [check_cons_eq] at hck
    cases hs : dget? bal t.sender with
    | none =>
      rw [hs] at hck
      cases hck
    | some v =>
      rw [hs] at hck
      by_cases hneg : lookupD (applySimple bal t) t.sender < 0 ∨
          lookupD (applySimple bal t) t.receiver < 0
      · rw [if_pos hneg] at hck
        cases hck
      · rw [if_neg hneg] at hck
        push_neg at hneg
        have hnd2 := nodup_keys_applySimple bal t hnd
        have hnn2 : allNonneg (applySimple bal t) = true := by
          rw [allNonneg_iff_lookupD _ hnd2]
          intro k
          by_cases hk1 : k = t.receiver
          · rw [hk1]
            exact hneg.2
          · by_cases hk2 : k = t.sender
            · rw [hk2]
              exact hneg.1
            · rw [lookupD_applySimple, if_neg hk1, if_neg hk2]
              have := (allNonneg_iff_lookupD bal hnd).mp hnn k
              omega
        exact ⟨hnn2, ih _ hnd2 hnn2 hck⟩

theorem gatherLoop_cases (bal : List (String × Int)) (sampler : Nat → List Tx) :
    ∀ n : Nat, gatherLoop bal sampler n = [] ∨
      ∃ m, 1 ≤ m ∧ m ≤ n ∧ gatherLoop bal sampler n = sampler m ∧
        checkTransactionsBalance bal (sampler m) = true := by
  intro n
  induction n with
  | zero => exact Or.inl rfl
  | succ n ih =>
    cases hc : checkTransactionsBalance bal (sampler (n + 1)) with
    | true =>
      rw [gatherLoop, hc]
      simp only [if_true]
      exact Or.inr ⟨n + 1, by omega, le_refl _, rfl, hc⟩
    | false =>
      rw [gatherLoop, hc]
      simp only [Bool.false_eq_true, if_false]
      rcases ih with h | ⟨m, h1, h2, h3, h4⟩
      · exact Or.inl h
      · exact Or.inr ⟨m, h1, by omega, h3, h4⟩

theorem check_gatherLoop (bal : List (String × Int)) (sampler : Nat → List Tx) (n : Nat) :
    checkTransactionsBalance bal (gatherLoop bal sampler n) = true := by
  rcases gatherLoop_cases bal sampler n with h | ⟨m, _, _, h3, h4⟩
  · rw [h]
    rfl
  · rw [h3]
    exact h4

/-! Lemmas for the chain-store invariant. -/

theorem mem_dset_cases {K V : Type} [DecidableEq K] {m : List (K × V)} {k : K} {v : V}
    {kv : K × V} (h : kv ∈ dset m k v) : kv = (k, v) ∨ kv ∈ m := by
  induction m with
  | nil =>
    rw [dset] at h
    exact Or.inl (List.mem_singleton.mp h)
  | cons kv0 rest ih =>
    rw [dset] at h
    by_cases h0 : kv0.1 = k
    · rw [if_pos h0] at h
      rcases List.mem_cons.mp h with h1 | h1
      · exact Or.inl h1
      · exact Or.inr (List.mem_cons_of_mem _ h1)
    · rw [if_neg h0] at h
      rcases List.mem_cons.mp h with h1 | h1
      · exact Or.inr (h1 ▸ List.mem_cons_self _ _)
      · rcases ih h1 with h2 | h2
        · exact Or.inl h2
        · exact Or.inr (List.mem_cons_of_mem _ h2)

theorem mem_dset_iff {K V : Type} [DecidableEq K] {m : List (K × V)} {k : K} {v : V}
    {kv : K × V} (hnd : (m.map Prod.fst).Nodup) :
    kv ∈ dset m k v ↔ kv = (k, v) ∨ (kv ∈ m ∧ kv.1 ≠ k) := by
  induction m with
  | nil =>
    rw [dset]
    simp
  | cons kv0 rest ih =>
    rw [List.map_cons, List.nodup_cons] at hnd
    have hnotm : ∀ kv2 ∈ rest, kv2.1 ≠ kv0.1 := by
      intro kv2 h2 he
      exact hnd.1 (he ▸ List.mem_map.mpr ⟨kv2, h2, rfl⟩)
    rw [dset]
    by_cases h0 : kv0.1 = k
    · rw [if_pos h0]
      constructor
      · intro h
        rcases List.mem_cons.mp h with h1 | h1
        · exact Or.inl h1
        · exact Or.inr ⟨List.mem_cons_of_mem _ h1, h0 ▸ hnotm _ h1⟩
      · rintro (h1 | ⟨h1, h2⟩)
        · exact h1 ▸ List.mem_cons_self _ _
        · rcases List.mem_cons.mp h1 with h3 | h3
          · exact absurd (h3 ▸ h0) h2
          · exact List.mem_cons_of_mem _ h3
    · rw [if_neg h0]
      constructor
      · intro h
        rcases List.mem_cons.mp h with h1 | h1
        · exact Or.inr ⟨h1 ▸ List.mem_cons_self _ _, h1 ▸ fun he => h0 he⟩
        · rcases (ih hnd.2).mp h1 with h2 | ⟨h2, h3⟩
          · exact Or.inl h2
          · exact Or.inr ⟨List.mem_cons_of_mem _ h2, h3⟩
      · rintro (h1 | ⟨h1, h2⟩)
        · exact List.mem_cons_of_mem _ ((ih hnd.2).mpr (Or.inl h1))
        · rcases List.mem_cons.mp h1 with h3 | h3
          · exact h3 ▸ List.mem_cons_self _ _
          · exact List.mem_cons_of_mem _ ((ih hnd.2).mpr (Or.inr ⟨h3, h2⟩))

theorem dcontains_dset_mono {K V : Type} [DecidableEq K] (m : List (K × V)) (k k2 : K)
    (v : V) (h : dcontains m k2 = true) : dcontains (dset m k v) k2 = true := by
  rw [dcontains_iff] at h ⊢
  obtain ⟨v0, hv0⟩ := h
  by_cases hk : k2 = k
  · exact ⟨v, by rw [hk, dget?_dset_self]⟩
  · exact ⟨v0, by rw [dget?_dset_ne _ _ _ _ hk, hv0]⟩

theorem isOk_iff {A : Type} (e : Except String A) :
    e.isOk = true ↔ ∃ a, e = Except.ok a := by
  cases e with
  | error e2 => simp [Except.isOk, Except.toBool]
  | ok a => simp [Except.isOk, Except.toBool]

/-- Replacing a stored block by one with the same header relates the old
and the new map entrywise on headers. -/
theorem dset_forall2 {m : List (H × BlockC H)} {k : H} {v0 v : BlockC H}
    (hget : dget? m k = some v0) (hh : v0.header = v.header) :
    List.Forall₂ (fun a b => a.2.header = b.2.header) m (dset m k v) := by
  induction m with
  | nil => simp [dget?] at hget
  | cons kv0 rest ih =>
    rw [dset]
    by_cases h0 : kv0.1 = k
    · rw [if_pos h0]
      rw [dget?, if_pos h0] at hget
      injection hget with hg2
      refine List.Forall₂.cons (by rw [hg2, hh]) ?_
      rw [List.forall₂_same]
      intro x _
      rfl
    · rw [if_neg h0]
      rw [dget?, if_neg h0] at hget
      exact List.Forall₂.cons rfl (ih hget)

theorem walk_congr_ok {c : Ctx H} {bs bs2 : List (H × BlockC H)}
    (hrel : List.Forall₂ (fun a b => a.2.header = b.2.header) bs bs2) {f : Nat} {ph : H}
    {l : List (BlockC H)} (hw : walkE c bs f ph = Except.ok l) :
    ∃ l2, walkE c bs2 f ph = Except.ok l2 ∧
      l2.map (fun x => x.header) = l.map (fun x => x.header) := by
  have h := walk_same_headers (c := c) hrel f ph
  rw [hw, except_map_ok] at h
  cases hw2 : walkE c bs2 f ph with
  | error e =>
    rw [hw2, except_map_error] at h
    exact Except.noConfusion h
  | ok l2 =>
    rw [hw2, except_map_ok] at h
    injection h with h2
    exact ⟨l2, rfl, h2.symm⟩

theorem map_length_ok {A : Type} {e : Except String (List A)} {n : Nat}
    (h : e.map List.length = Except.ok n) : ∃ l, e = Except.ok l ∧ l.length = n := by
  cases e with
  | error e2 =>
    rw [except_map_error] at h
    exact Except.noConfusion h
  | ok l =>
    rw [except_map_ok] at h
    injection h with h2
    exact ⟨l, rfl, h2⟩

/-- The invariant holds for the store Blockchain.new() builds, provided
the genesis header does not hash to the genesis sentinel. -/
theorem inv_new {c : Ctx H} (hg : c.hashH (genesisHeaderC c) ≠ c.gprev) :
    Inv c (newChainState c) := by
  refine ⟨?_, ?_, ?_, ?_, ?_, ?_, ?_, ?_, ?_, ?_⟩
  · intro kv hkv
    rw [newChainState] at hkv
    rw [List.mem_singleton.mp hkv]
    rfl
  · rw [newChainState]
    simp
  · rw [newChainState]
    rw [show (ChainState.mk [(c.hashH (genesisHeaderC c), genesisBlockC c)]
      [(c.hashH (genesisHeaderC c), 0)]).hashBlockMap
      = [(c.hashH (genesisHeaderC c), genesisBlockC c)] from rfl]
    rw [dget?, if_neg hg]
    rfl
  · rw [newChainState]
    rw [show (ChainState.mk [(c.hashH (genesisHeaderC c), genesisBlockC c)]
      [(c.hashH (genesisHeaderC c), 0)]).hashBlockMap
      = [(c.hashH (genesisHeaderC c), genesisBlockC c)] from rfl]
    rw [dget?, if_pos rfl]
  · intro kv hkv
    rw [newChainState] at hkv
    rw [List.mem_singleton.mp hkv]
    exact Or.inl rfl
  · intro kv hkv
    rw [newChainState] at hkv
    rw [List.mem_singleton.mp hkv]
    rw [show (genesisBlockC c).header.prev_hash = c.gprev from rfl]
    rw [show walkFuel (newChainState c).hashBlockMap = 1 + 1 from rfl]
    rw [walkE_succ_gprev rfl]
    rfl
  · intro kn hkn
    rw [newChainState] at hkn
    rw [List.mem_singleton.mp hkn]
    rw [dcontains]
    rw [show (newChainState c).hashBlockMap
      = [(c.hashH (genesisHeaderC c), genesisBlockC c)] from rfl]
    rw [dget?, if_pos rfl]
    rfl
  · intro kn hkn
    rw [newChainState] at hkn
    rw [List.mem_singleton.mp hkn]
    have hget : dget? (newChainState c).hashBlockMap (c.hashH (genesisHeaderC c))
        = some (genesisBlockC c) := by
      simp only [newChainState]
      rw [dget?, if_pos rfl]
    simp only [tipWalkLenE, hget]
    rw [show (genesisBlockC c).header.prev_hash = c.gprev from rfl]
    rw [show walkFuel (newChainState c).hashBlockMap = 1 + 1 from rfl]
    rw [walkE_succ_gprev rfl]
    rfl
  · rw [newChainState]
    simp
  · rw [newChainState]
    simp

/-- Preservation of the invariant by one successful add, under the
content-addressing side condition freshOkB. -/
theorem inv_preserved {c : Ctx H} {s s2 : ChainState H} {b : BlockC H}
    (hinv : Inv c s) (hfresh : freshOkB c s b = true) (hadd : addE c s b = Except.ok s2) :
    Inv c s2 := by
  obtain ⟨hkh, hknd, hgf, hgen, hpc, hbw, htb, htl, hne, htnd⟩ := hinv
  rw [freshOkB, Bool.and_eq_true] at hfresh
  have hcurrg : c.hashH b.header ≠ c.gprev := by
    have h1 := hfresh.1
    simpa using h1
  cases hv : bcVerifyE c s b with
  | error e =>
    simp only [addE, hv] at hadd
    exact Except.noConfusion hadd
  | ok u =>
  have hprevB : ∃ prevB, dget? s.hashBlockMap b.header.prev_hash = some prevB := by
    cases hp : dget? s.hashBlockMap b.header.prev_hash with
    | none =>
      simp only [bcVerifyE, hp] at hv
      exact Except.noConfusion hv
    | some prevB => exact ⟨prevB, rfl⟩
  obtain ⟨prevB, hprevB⟩ := hprevB
  have hphg : ¬ b.header.prev_hash = c.gprev := by
    intro he
    rw [he, hgf] at hprevB
    exact Option.noConfusion hprevB
  have hb2 : ∀ x, x ≠ c.hashH b.header →
      dget? (dset s.hashBlockMap (c.hashH b.header) b) x = dget? s.hashBlockMap x :=
    fun x hx => dget?_dset_ne _ _ _ _ hx
  have hbcurr : dget? (dset s.hashBlockMap (c.hashH b.header) b) (c.hashH b.header)
      = some b := dget?_dset_self _ _ _
  have hkh2 : ∀ kv ∈ dset s.hashBlockMap (c.hashH b.header) b,
      kv.1 = c.hashH kv.2.header := by
    intro kv hkv
    rcases mem_dset_cases hkv with h1 | h1
    · rw [h1]
    · exact hkh kv h1
  have hknd2 := nodup_keys_dset s.hashBlockMap (c.hashH b.header) b hknd
  have hgf2 : dget? (dset s.hashBlockMap (c.hashH b.header) b) c.gprev = none := by
    rw [hb2 _ (fun e => hcurrg e.symm), hgf]
  have hgenne : c.hashH (genesisHeaderC c) ≠ c.hashH b.header := by
    intro he
    have hsome : dget? s.hashBlockMap (c.hashH b.header) = some (genesisBlockC c) := by
      rw [← he]
      exact hgen
    have h2 := hfresh.2
    rw [hsome] at h2
    have hhd : (genesisBlockC c).header = b.header := by simpa using h2
    have h3 : b.header.prev_hash = c.gprev := by
      rw [← hhd]
      rfl
    exact hphg h3
  have hgen2 : dget? (dset s.hashBlockMap (c.hashH b.header) b)
      (c.hashH (genesisHeaderC c)) = some (genesisBlockC c) := by
    rw [hb2 _ hgenne, hgen]
  have hpc2 : ∀ kv ∈ dset s.hashBlockMap (c.hashH b.header) b,
      kv.2 = genesisBlockC c ∨
        dcontains (dset s.hashBlockMap (c.hashH b.header) b) kv.2.header.prev_hash
          = true := by
    intro kv hkv
    rcases mem_dset_cases hkv with h1 | h1
    · right
      rw [h1]
      refine dcontains_dset_mono _ _ _ _ ?_
      rw [dcontains, hprevB]
      rfl
    · rcases hpc kv h1 with h2 | h2
      · exact Or.inl h2
      · exact Or.inr (dcontains_dset_mono _ _ _ _ h2)
  have htrans : ∀ (ph2 : H) (l0 : List (BlockC H)),
      walkE c s.hashBlockMap (walkFuel s.hashBlockMap) ph2 = Except.ok l0 →
      ∃ l2, walkE c (dset s.hashBlockMap (c.hashH b.header) b)
          (walkFuel (dset s.hashBlockMap (c.hashH b.header) b)) ph2 = Except.ok l2 ∧
        l2.length = l0.length := by
    cases hb0 : dget? s.hashBlockMap (c.hashH b.header) with
    | some b0 =>
      have hhd : b0.header = b.header := by
        have h2 := hfresh.2
        rw [hb0] at h2
        simpa using h2
      have hrel := dset_forall2 hb0 hhd
      have hlen : (dset s.hashBlockMap (c.hashH b.header) b).length
          = s.hashBlockMap.length := length_dset_of_mem _ _ _ _ hb0
      intro ph2 l0 hw
      obtain ⟨l2, hw2, hm⟩ := walk_congr_ok hrel hw
      rw [walkFuel, hlen]
      refine ⟨l2, hw2, ?_⟩
      have h3 : (l2.map (fun x => x.header)).length = (l0.map (fun x => x.header)).length := by
        rw [hm]
      simpa using h3
    | none =>
      have hfr : dset s.hashBlockMap (c.hashH b.header) b
          = s.hashBlockMap ++ [(c.hashH b.header, b)] := dset_fresh _ _ _ hb0
      intro ph2 l0 hw
      rw [hfr]
      have h1 := walk_append [(c.hashH b.header, b)] _ hw
      have hlen2 : walkFuel (s.hashBlockMap ++ [(c.hashH b.header, b)])
          = walkFuel s.hashBlockMap + 1 := by
        rw [walkFuel, walkFuel]
        simp
      rw [hlen2]
      exact ⟨l0, walk_mono _ _ h1 (by omega), rfl⟩
  have hWold : ∃ lp, walkE c s.hashBlockMap (walkFuel s.hashBlockMap) b.header.prev_hash
      = Except.ok (prevB :: lp) := by
    have hpb := hbw (b.header.prev_hash, prevB) (dget?_mem hprevB)
    rw [isOk_iff] at hpb
    obtain ⟨lp, hlp⟩ := hpb
    have hfind : findByHash c s.hashBlockMap b.header.prev_hash = some prevB := by
      rw [findByHash_eq_dget hkh, hprevB]
    have hext : walkE c s.hashBlockMap (walkFuel s.hashBlockMap + 1) b.header.prev_hash
        = Except.ok (prevB :: lp) := by
      rw [walkE_succ_found hphg hfind, hlp, except_map_ok]
    have hble := walk_length_le hkh hext
    have hx := walk_exact _ hext
    refine ⟨lp, walk_mono _ _ hx ?_⟩
    rw [walkFuel]
    omega
  obtain ⟨lp, hWold⟩ := hWold
  obtain ⟨lnew, hWnew, hlnew⟩ := htrans _ _ hWold
  have hbw2 : ∀ kv ∈ dset s.hashBlockMap (c.hashH b.header) b,
      (walkE c (dset s.hashBlockMap (c.hashH b.header) b)
        (walkFuel (dset s.hashBlockMap (c.hashH b.header) b))
        kv.2.header.prev_hash).isOk = true := by
    intro kv hkv
    rcases mem_dset_cases hkv with h1 | h1
    · rw [h1, isOk_iff]
      exact ⟨lnew, hWnew⟩
    · have h2 := hbw kv h1
      rw [isOk_iff] at h2 ⊢
      obtain ⟨l0, hl0⟩ := h2
      obtain ⟨l2, h3, _⟩ := htrans _ _ hl0
      exact ⟨l2, h3⟩
  simp only [addE, hv] at hadd
  cases ht : dget? s.endhashClenMap b.header.prev_hash with
  | some n =>
    simp only [ht] at hadd
    injection hadd with h2
    subst h2
    refine ⟨hkh2, hknd2, hgf2, hgen2, hpc2, hbw2, ?_, ?_, ?_, ?_⟩
    · intro kn hkn
      rcases mem_dset_cases hkn with h1 | h1
      · rw [h1, dcontains, hbcurr]
        rfl
      · exact dcontains_dset_mono _ _ _ _ (htb kn (mem_dpop h1))
    · intro kn hkn
      rcases (mem_dset_iff (nodup_keys_dpop _ _ htnd)).mp hkn with h1 | ⟨h1, h2⟩
      · -- the new end block, with length n + 1
        rw [h1]
        simp only [tipWalkLenE, hbcurr]
        -- measure the transported walk
        have ht3 := htl (b.header.prev_hash, n) (dget?_mem ht)
        simp only [tipWalkLenE, hprevB] at ht3
        obtain ⟨l0, hl0, hlen0⟩ := map_length_ok ht3
        have hlp : lp.length = n := by
          rcases walk_ok_succ hWold with ⟨hgg, _⟩ | ⟨_, blk, lp2, hfind2, hw2, heq⟩
          · exact absurd hgg hphg
          · injection heq with heq1 heq2
            subst heq1
            subst heq2
            have hdet := walk_det hw2 hl0
            rw [hdet, hlen0]
        show Except.map List.length
            (walkE c (dset s.hashBlockMap (c.hashH b.header) b)
              (walkFuel (dset s.hashBlockMap (c.hashH b.header) b)) b.header.prev_hash)
          = Except.ok (c.hashH b.header, n + 1).2
        rw [hWnew, except_map_ok, hlnew]
        simp only [List.length_cons, hlp]
      · have h3 := htl kn (mem_dpop h1)
        simp only [tipWalkLenE] at h3 ⊢
        cases hq : dget? s.hashBlockMap kn.1 with
        | none =>
          rw [hq] at h3
          exact Except.noConfusion h3
        | some tb =>
          rw [hq] at h3
          simp only [hb2 kn.1 h2, hq]
          obtain ⟨l0, hl0, hlen0⟩ := map_length_ok h3
          obtain ⟨l2, hw2, hl2len⟩ := htrans _ _ hl0
          show Except.map List.length
              (walkE c (dset s.hashBlockMap (c.hashH b.header) b)
                (walkFuel (dset s.hashBlockMap (c.hashH b.header) b)) tb.header.prev_hash)
            = Except.ok kn.2
          rw [hw2, except_map_ok, hl2len, hlen0]
    · exact dset_ne_nil _ _ _
    · exact nodup_keys_dset _ _ _ (nodup_keys_dpop _ _ htnd)
  | none =>
    simp only [ht] at hadd
    cases hlen : getChainLengthE c (dset s.hashBlockMap (c.hashH b.header) b) b with
    | error e2 =>
      simp only [hlen] at hadd
      exact Except.noConfusion hadd
    | ok len =>
      simp only [hlen] at hadd
      injection hadd with h2
      subst h2
      refine ⟨hkh2, hknd2, hgf2, hgen2, hpc2, hbw2, ?_, ?_, ?_, ?_⟩
      · intro kn hkn
        rcases mem_dset_cases hkn with h1 | h1
        · rw [h1, dcontains, hbcurr]
          rfl
        · exact dcontains_dset_mono _ _ _ _ (htb kn h1)
      · intro kn hkn
        rcases (mem_dset_iff htnd).mp hkn with h1 | ⟨h1, h2⟩
        · rw [h1]
          simp only [tipWalkLenE, hbcurr]
          rw [getChainLengthE] at hlen
          exact hlen
        · have h3 := htl kn h1
          simp only [tipWalkLenE] at h3 ⊢
          cases hq : dget? s.hashBlockMap kn.1 with
          | none =>
            rw [hq] at h3
            exact Except.noConfusion h3
          | some tb =>
            rw [hq] at h3
            simp only [hb2 kn.1 h2, hq]
            obtain ⟨l0, hl0, hlen0⟩ := map_length_ok h3
            obtain ⟨l2, hw2, hl2len⟩ := htrans _ _ hl0
            show Except.map List.length
                (walkE c (dset s.hashBlockMap (c.hashH b.header) b)
                  (walkFuel (dset s.hashBlockMap (c.hashH b.header) b)) tb.header.prev_hash)
              = Except.ok kn.2
            rw [hw2, except_map_ok, hl2len, hlen0]
      · exact dset_ne_nil _ _ _
      · exact nodup_keys_dset _ _ _ htnd

/-- Under an injective hash oracle that avoids the genesis sentinel, every
successful add step satisfies the content-addressing side condition, so
the invariant carries along any sequence of successful adds. -/
theorem inv_runAdds {c : Ctx H}
    (hinj : ∀ h1 h2 : HeaderC H, c.hashH h1 = c.hashH h2 → h1 = h2)
    (hsent : ∀ hd : HeaderC H, c.hashH hd ≠ c.gprev) :
    ∀ (bs : List (BlockC H)) (s s2 : ChainState H), Inv c s →
      runAddsE c s bs = Except.ok s2 → Inv c s2 := by
  intro bs
  induction bs with
  | nil =>
    intro s s2 hinv hr
    rw [runAddsE] at hr
    injection hr with h
    rw [← h]
    exact hinv
  | cons b rest ih =>
    intro s s2 hinv hr
    cases ha : addE c s b with
    | error e =>
      simp only [runAddsE, ha] at hr
      exact Except.noConfusion hr
    | ok s3 =>
      simp only [runAddsE, ha] at hr
      have hfresh : freshOkB c s b = true := by
        rw [freshOkB, Bool.and_eq_true]
        constructor
        · simp [hsent b.header]
        · cases hb0 : dget? s.hashBlockMap (c.hashH b.header) with
          | none => rfl
          | some b0 =>
            have hmem := dget?_mem hb0
            have hk := hinv.1 _ hmem
            have hhd : b0.header = b.header := hinj _ _ hk.symm
            simp [hhd]
      exact ih s3 s2 (inv_preserved hinv hfresh ha) hr

theorem hashTF_inj : ∀ h1 h2 : HeaderC HashT, hashTF h1 = hashTF h2 → h1 = h2 := by
  intro h1 h2 e
  cases h1
  cases h2
  rw [hashTF, hashTF] at e
  injection e with e1 e2 e3 e4
  subst e1
  subst e2
  subst e3
  subst e4
  rfl

theorem hashTF_sent : ∀ hd : HeaderC HashT, hashTF hd ≠ HashT.sentinel :=
  fun _ h => HashT.noConfusion h

/-! Lemmas for the resolve characterization. -/

theorem le_foldl_max_init : ∀ (xs : List Nat) (x : Nat), x ≤ xs.foldl max x := by
  intro xs
  induction xs with
  | nil => intro x; exact le_refl x
  | cons y ys ih =>
    intro x
    rw [List.foldl_cons]
    exact le_trans (Nat.le_max_left x y) (ih (max x y))

theorem le_foldl_max_mem : ∀ (xs : List Nat) (x y : Nat), y ∈ xs → y ≤ xs.foldl max x := by
  intro xs
  induction xs with
  | nil =>
    intro x y hy
    simp at hy
  | cons z zs ih =>
    intro x y hy
    rw [List.foldl_cons]
    rcases List.mem_cons.mp hy with h | h
    · rw [h]
      exact le_trans (Nat.le_max_right x z) (le_foldl_max_init zs (max x z))
    · exact ih (max x z) y h

theorem foldl_max_mem : ∀ (xs : List Nat) (x : Nat),
    xs.foldl max x = x ∨ xs.foldl max x ∈ xs := by
  intro xs
  induction xs with
  | nil => intro x; exact Or.inl rfl
  | cons z zs ih =>
    intro x
    rw [List.foldl_cons]
    rcases ih (max x z) with h | h
    · rcases max_choice x z with h2 | h2
      · exact Or.inl (by rw [h, h2])
      · exact Or.inr (by rw [h, h2]; exact List.mem_cons_self _ _)
    · exact Or.inr (List.mem_cons_of_mem _ h)

theorem maxNat?_spec {x : Nat} {l : List Nat} {m : Nat}
    (h : maxNat? (x :: l) = some m) :
    (m = x ∨ m ∈ l) ∧ x ≤ m ∧ ∀ y ∈ l, y ≤ m := by
  rw [maxNat?] at h
  injection h with h2
  subst h2
  exact ⟨foldl_max_mem l x, le_foldl_max_init l x, fun y hy => le_foldl_max_mem l x y hy⟩

theorem pyMaxAccE_spec {f : H → Except String Nat} :
    ∀ (l : List H) (best : H) (bv : Nat), f best = Except.ok bv →
      (∀ x ∈ l, ∃ px, f x = Except.ok px) →
      ∃ k p, pyMaxAccE f best bv l = Except.ok k ∧ (k = best ∨ k ∈ l) ∧
        f k = Except.ok p ∧ bv ≤ p ∧
        ∀ x ∈ l, ∀ px, f x = Except.ok px → px ≤ p := by
  intro l
  induction l with
  | nil =>
    intro best bv hb _
    exact ⟨best, bv, rfl, Or.inl rfl, hb, le_refl _, by simp⟩
  | cons x xs ih =>
    intro best bv hb hall
    obtain ⟨xv, hxv⟩ := hall x (List.mem_cons_self _ _)
    have hall2 : ∀ y ∈ xs, ∃ py, f y = Except.ok py :=
      fun y hy => hall y (List.mem_cons_of_mem _ hy)
    by_cases hlt : bv < xv
    · obtain ⟨k, p, h1, h2, h3, h4, h5⟩ := ih x xv hxv hall2
      refine ⟨k, p, ?_, ?_, h3, by omega, ?_⟩
      · simp only [pyMaxAccE, hxv]
        rw [if_pos hlt]
        exact h1
      · rcases h2 with h | h
        · exact Or.inr (h ▸ List.mem_cons_self _ _)
        · exact Or.inr (List.mem_cons_of_mem _ h)
      · intro y hy py hpy
        rcases List.mem_cons.mp hy with h | h
        · rw [h, hxv] at hpy
          injection hpy with hpy2
          omega
        · exact h5 y h py hpy
    · obtain ⟨k, p, h1, h2, h3, h4, h5⟩ := ih best bv hb hall2
      refine ⟨k, p, ?_, ?_, h3, h4, ?_⟩
      · simp only [pyMaxAccE, hxv]
        rw [if_neg hlt]
        exact h1
      · rcases h2 with h | h
        · exact Or.inl h
        · exact Or.inr (List.mem_cons_of_mem _ h)
      · intro y hy py hpy
        rcases List.mem_cons.mp hy with h | h
        · rw [h, hxv] at hpy
          injection hpy with hpy2
          omega
        · exact h5 y h py hpy

theorem pyMaxKeyE_spec {f : H → Except String Nat} {x : H} {xs : List H}
    (hall : ∀ y ∈ x :: xs, ∃ py, f y = Except.ok py) :
    ∃ k p, pyMaxKeyE f (x :: xs) = Except.ok k ∧ k ∈ x :: xs ∧
      f k = Except.ok p ∧ ∀ y ∈ x :: xs, ∀ py, f y = Except.ok py → py ≤ p := by
  obtain ⟨xv, hxv⟩ := hall x (List.mem_cons_self _ _)
  have hall2 : ∀ y ∈ xs, ∃ py, f y = Except.ok py :=
    fun y hy => hall y (List.mem_cons_of_mem _ hy)
  obtain ⟨k, p, h1, h2, h3, h4, h5⟩ := pyMaxAccE_spec xs x xv hxv hall2
  refine ⟨k, p, ?_, ?_, h3, ?_⟩
  · simp only [pyMaxKeyE, hxv]
    exact h1
  · rcases h2 with h | h
    · exact h ▸ List.mem_cons_self _ _
    · exact List.mem_cons_of_mem _ h
  · intro y hy py hpy
    rcases List.mem_cons.mp hy with h | h
    · rw [h, hxv] at hpy
      injection hpy with hpy2
      omega
    · exact h5 y h py hpy

/-- Every end block of an invariant store has a block, a terminating walk
and a chain PoW, and the PoW is the tip's hash value plus the sum of the
hash values along the walk to genesis. -/
theorem powE_of_tip {c : Ctx H} {s : ChainState H} (hinv : Inv c s) {k : H} {n : Nat}
    (hkn : (k, n) ∈ s.endhashClenMap) :
    ∃ b p l, dget? s.hashBlockMap k = some b ∧ powE c s k = Except.ok p ∧
      walkE c s.hashBlockMap (walkFuel s.hashBlockMap) b.header.prev_hash = Except.ok l ∧
      p = c.hval (c.hashH b.header) + (l.map (fun x => c.hval (c.hashH x.header))).sum ∧
      l.length = n := by
  obtain ⟨_, _, _, _, _, _, _, htl, _, _⟩ := hinv
  have h1 := htl (k, n) hkn
  simp only [tipWalkLenE] at h1
  cases hq : dget? s.hashBlockMap k with
  | none =>
    rw [hq] at h1
    exact Except.noConfusion h1
  | some b =>
    rw [hq] at h1
    obtain ⟨l, hl, hlen⟩ := map_length_ok h1
    refine ⟨b, _, l, rfl, ?_, hl, rfl, hlen⟩
    simp only [powE, hq, getChainPowE]
    rw [hl, except_map_ok]

/-! Claim theorems. -/

/-- C5: the claim says that building a MerkleTree over any non-empty list
of distinct leaves terminates with a root and that proofs round-trip.  In
the source, MerkleTree.__init__ calls _hash_items, whose loop indexes the
leaf list with the (index, element) pair produced by enumerate, so the
constructor raises TypeError on every non-empty input; independently, the
Node constructor evaluates None.height for every leaf, so the add() path
raises as well.  This theorem evaluates the faithful embedding at the
failing inputs. -/
theorem c5_merkle_build_crashes :
    hashItemsE ["a"] =
      Except.error "TypeError: list indices must be integers or slices, not tuple" ∧
    merkleRootE ["a"] =
      Except.error "TypeError: list indices must be integers or slices, not tuple" ∧
    merkleNodeNewE 1 none "ab" =
      Except.error "AttributeError: 'NoneType' object has no attribute 'height'" :=
  ⟨rfl, rfl, rfl⟩

/-- C2: the claim says Block.verify decides the listed conjunction for
non-genesis blocks.  In the source, _check_root constructs
MerkleTree(self._transactions), which raises TypeError for every non-empty
transaction list (see c5_merkle_build_crashes), so verify raises before
the root, transaction and duplicate conditions can be decided: here a
non-genesis block whose header hash is below TARGET still raises. -/
theorem c2_block_verify_crashes :
    blockC2W ≠ genesisBlockS ∧
    strLt (hashZW blockC2W.header) TARGET = true ∧
    blockVerifyE hashZW parseStubW txTrueW blockC2W =
      Except.error "TypeError: list indices must be integers or slices, not tuple" :=
  ⟨by decide, by decide, by decide⟩

/-- C10: Block.new raises on an empty transaction list, for every previous
hash, timestamp, nonce stream, cancellation signal and fuel — before any
header is constructed or any proof-of-work attempt is made. -/
theorem c10_block_new_empty_raises :
    ∀ (h1 : HeaderS → String) (p : String) (ts : Int) (ns : Nat → String)
      (sm : Nat → Bool) (f : Nat),
      blockNewE h1 p [] ts ns sm f = Except.error "No transactions in block creation." := by
  intro h1 p ts ns sm f
  rfl

/-- C9: Miner.get_balance returns 0 for an identifier that has no account
on the current best fork rather than failing, and the account balance for
an identifier that has one, whenever resolve and the balance
reconstruction succeed. -/
theorem c9_get_balance_default {c : Ctx H} {s : ChainState H} {last : BlockC H}
    {bal : List (String × Int)} (hr : resolveE c s = Except.ok last)
    (hb : getBalanceByForkE c s last = Except.ok bal) (ident : String) :
    (dget? bal ident = none → minerGetBalanceE c s ident = Except.ok 0) ∧
    (∀ v, dget? bal ident = some v → minerGetBalanceE c s ident = Except.ok v) := by
  constructor
  · intro hnone
    simp only [minerGetBalanceE, hr, hb, hnone]
    rfl
  · intro v hsome
    simp only [minerGetBalanceE, hr, hb, hsome]
    rfl

theorem c9_get_balance_default_witness :
    minerGetBalanceE cW s1W "X" = Except.ok 0 ∧
    minerGetBalanceE cW s1W "M" = Except.ok 100 := by
  constructor
  · exact (c9_get_balance_default
      (by decide : resolveE cW s1W = Except.ok b1W)
      (by decide : getBalanceByForkE cW s1W b1W = Except.ok [("M", 100)]) "X").1 (by decide)
  · exact (c9_get_balance_default
      (by decide : resolveE cW s1W = Except.ok b1W)
      (by decide : getBalanceByForkE cW s1W b1W = Except.ok [("M", 100)]) "M").2 100 (by decide)

/-- C4, counterexample: the claim says get_balance_by_fork raises whenever
some account balance is negative at an intermediate step of the replay.
On the fork consisting of the single block bC4W, the account A is at minus
five after the second transaction, yet the source checks only the final
map and returns it without raising. -/
theorem c4_intermediate_negative_counterexample :
    anyNegDuringBlocks [] [bC4W] = true ∧
    getBalanceByForkE cW sC4W bC4W = Except.ok [("M", 95), ("A", 5)] ∧
    (∀ e, getBalanceByForkE cW sC4W bC4W ≠ Except.error e) := by
  refine ⟨by decide, by decide, ?_⟩
  intro e h
  rw [show getBalanceByForkE cW sC4W bC4W = Except.ok [("M", 95), ("A", 5)] from by decide]
    at h
  cases h

/-- C4, amended: get_balance_by_fork replays the fork's transactions (the
blocks tip first; the resulting map is pointwise the same as the
genesis-to-tip replay), and it raises exactly when some account's final
balance is negative; otherwise it returns the map. -/
theorem c4_balance_by_fork_amended {c : Ctx H} {s : ChainState H} {last : BlockC H}
    {blks : List (BlockC H)}
    (hb : blocksByForkE c s.hashBlockMap (walkFuel s.hashBlockMap) last = Except.ok blks) :
    (getBalanceByForkE c s last = Except.error "Negative amount when computing balance." ↔
      ∃ k, lookupD (blks.reverse.foldl applyBlockBal []) k < 0) ∧
    (∀ bal, getBalanceByForkE c s last = Except.ok bal →
      (bal.map Prod.fst).Nodup ∧
      ∀ k, lookupD bal k = lookupD (blks.reverse.foldl applyBlockBal []) k) := by
  have hnd : ((blks.foldl applyBlockBal []).map Prod.fst).Nodup :=
    nodup_keys_foldl_blocks blks [] (by simp)
  have hneg : anyNegative (blks.foldl applyBlockBal []) = true ↔
      ∃ k, lookupD (blks.reverse.foldl applyBlockBal []) k < 0 := by
    rw [anyNegative_iff_lookupD _ hnd]
    constructor
    · rintro ⟨k, hk⟩
      exact ⟨k, by rw [← lookupD_foldl_reverse]; exact hk⟩
    · rintro ⟨k, hk⟩
      exact ⟨k, by rw [lookupD_foldl_reverse]; exact hk⟩
  constructor
  · constructor
    · intro h
      cases han : anyNegative (blks.foldl applyBlockBal []) with
      | true => exact hneg.mp han
      | false =>
        simp only [getBalanceByForkE, hb, han] at h
        simp at h
    · intro hex
      have han : anyNegative (blks.foldl applyBlockBal []) = true := hneg.mpr hex
      simp only [getBalanceByForkE, hb, han]
      simp
  · intro bal hok
    cases han : anyNegative (blks.foldl applyBlockBal []) with
    | true =>
      simp only [getBalanceByForkE, hb, han] at hok
      simp at hok
    | false =>
      simp only [getBalanceByForkE, hb, han] at hok
      simp at hok
      rw [← hok]
      exact ⟨hnd, fun k => lookupD_foldl_reverse blks [] k⟩

theorem c4_balance_by_fork_amended_witness :
    getBalanceByForkE cW sC4W bC4W = Except.ok [("M", 95), ("A", 5)] ∧
    lookupD [("M", 95), ("A", 5)] "A" =
      lookupD ([bC4W].reverse.foldl applyBlockBal []) "A" := by
  refine ⟨by decide, ?_⟩
  exact ((c4_balance_by_fork_amended
    (by decide : blocksByForkE cW sC4W.hashBlockMap (walkFuel sC4W.hashBlockMap) bC4W =
      Except.ok [bC4W])).2 [("M", 95), ("A", 5)] (by decide)).2 "A"

/-- C7, counterexample: the claim says resolve never removes blocks, citing
both resolve variants.  The legacy variant (src/blockchain.py) prunes: on
the two-fork store sForkW it returns the winner b2W but rebuilds the block
map without the losing fork block c1W and resets the end-block map. -/
theorem c7_legacy_resolve_prunes_counterexample :
    legacyResolveE cW sForkW = Except.ok (sPrunedW, b2W) ∧
    sPrunedW.hashBlockMap ≠ sForkW.hashBlockMap ∧
    dget? sForkW.hashBlockMap 4 = some c1W ∧
    dget? sPrunedW.hashBlockMap 4 = none :=
  ⟨by decide, by decide, by decide, by decide⟩

/-- C7, amended: the resolve of the spec's chain store
(src/src/blockchain.py) never mutates the store: whenever it returns, the
block map and the end-block map are unchanged, so blocks of losing forks
stay available; the legacy variant at the repository root prunes them
instead. -/
theorem c7_resolve_frame_amended {c : Ctx H} {s s2 : ChainState H} {b : BlockC H}
    (h : resolveStateE c s = Except.ok (s2, b)) :
    s2.hashBlockMap = s.hashBlockMap ∧ s2.endhashClenMap = s.endhashClenMap := by
  rw [resolveStateE] at h
  cases hr : resolveE c s with
  | error e =>
    rw [hr, except_map_error] at h
    cases h
  | ok b2 =>
    rw [hr, except_map_ok] at h
    cases h
    exact ⟨rfl, rfl⟩

theorem c7_resolve_frame_amended_witness :
    resolveStateE cW sForkW = Except.ok (sForkW, b2W) ∧
    sForkW.hashBlockMap = sForkW.hashBlockMap := by
  refine ⟨by decide, ?_⟩
  exact (c7_resolve_frame_amended
    (by decide : resolveStateE cW sForkW = Except.ok (sForkW, b2W))).1

/-- C6: _gather_transactions always terminates and returns the fresh
coinbase (REWARD from the miner to itself) followed by a subset of the
pending pool that passes the balance check; replaying that subset on the
current (non-negative) balance keeps every account non-negative at every
intermediate step; and the sample of the size of the whole pool is tried
first: if it passes the check it is the returned subset. -/
theorem c6_gather_transactions (pk nonce sig : String) (bal : List (String × Int))
    (pool : List Tx) (sampler : Nat → List Tx)
    (hnd : (bal.map Prod.fst).Nodup) (hnn : allNonneg bal = true)
    (hs : ∀ n, ∀ t ∈ sampler n, t ∈ pool) :
    (gatherTransactions pk nonce sig bal pool sampler).head? =
      some (coinbaseTx pk nonce sig) ∧
    (∀ t ∈ (gatherTransactions pk nonce sig bal pool sampler).tail, t ∈ pool) ∧
    checkTransactionsBalance bal (gatherTransactions pk nonce sig bal pool sampler).tail
      = true ∧
    noNegDuring bal (gatherTransactions pk nonce sig bal pool sampler).tail ∧
    (pool ≠ [] → checkTransactionsBalance bal (sampler pool.length) = true →
      (gatherTransactions pk nonce sig bal pool sampler).tail = sampler pool.length) := by
  rw [gatherTransactions]
  by_cases hp : pool = []
  · rw [if_pos hp]
    refine ⟨rfl, ?_, rfl, ?_, fun hne _ => absurd hp hne⟩
    · simp
    · exact trivial
  · rw [if_neg hp]
    simp only [List.head?_cons, List.tail_cons]
    have hchk := check_gatherLoop bal sampler pool.length
    refine ⟨by simp, ?_, hchk, ?_, ?_⟩
    · intro t ht
      rcases gatherLoop_cases bal sampler pool.length with hcase | ⟨m, _, _, h3, _⟩
      · rw [hcase] at ht
        simp at ht
      · rw [h3] at ht
        exact hs m t ht
    · exact check_sound _ bal hnd hnn hchk
    · intro _ hck
      obtain ⟨m0, hm⟩ : ∃ m0, pool.length = m0 + 1 := by
        cases hpool : pool with
        | nil => exact absurd hpool hp
        | cons x xs => exact ⟨xs.length, by simp⟩
      rw [hm] at hck ⊢
      rw [gatherLoop, hck]
      simp

theorem c6_gather_transactions_witness :
    gatherTransactions "M" "n" "s" balW [txABW] (fun _ => [txABW]) =
      [coinbaseTx "M" "n" "s", txABW] ∧
    (gatherTransactions "M" "n" "s" balW [txABW] (fun _ => [txABW])).head? =
      some (coinbaseTx "M" "n" "s") := by
  refine ⟨by decide, ?_⟩
  exact (c6_gather_transactions "M" "n" "s" balW [txABW] (fun _ => [txABW])
    (by decide) (by decide) (fun n t ht => ht)).1

/-- C8: the transaction half of the claim holds — adding a transaction
JSON already in the pool returns the pool unchanged — but the block half
describes behavior the program cannot exhibit: Blockchain.add runs
block.validate() and block.verify() inside verify(), before touching
either dictionary, and whenever that self check fails the add raises
instead of succeeding.  Block.verify raises TypeError inside
MerkleTree._hash_items for every non-genesis block with transactions (the
C2/C5 slip), so re-adding a stored block never succeeds and never reaches
the tip-map update. -/
theorem c8_add_block_code_bug :
    (∀ (txOk : String → Bool) (allTx : List String) (txJson : String),
      txOk txJson = true → txJson ∈ allTx →
      addTransactionE txOk allTx txJson = Except.ok allTx) ∧
    (∀ (c : Ctx H) (s : ChainState H) (b : BlockC H),
      c.selfOk b = false → ∀ s2, addE c s b ≠ Except.ok s2) := by
  constructor
  · intro txOk allTx txJson hok hmem
    rw [addTransactionE, hok]
    simp [hmem]
  · intro c s b hfalse s2 hadd
    have he : ∃ e, bcVerifyE c s b = Except.error e := by
      cases hd : dget? s.hashBlockMap b.header.prev_hash with
      | none =>
        refine ⟨"Previous block does not exist.", ?_⟩
        simp only [bcVerifyE, hd]
      | some prevB =>
        by_cases h1 : c.selfOk prevB = true
        · by_cases h2 : prevB.header.timestamp < b.header.timestamp
          · refine ⟨"Invalid block.", ?_⟩
            simp only [bcVerifyE, hd]
            rw [if_neg (not_not_intro h1), if_neg (not_not_intro h2),
              if_pos (by simp [hfalse])]
          · refine ⟨"Invalid timestamp in block.", ?_⟩
            simp only [bcVerifyE, hd]
            rw [if_neg (not_not_intro h1), if_pos h2]
        · refine ⟨"Previous block is invalid.", ?_⟩
          simp only [bcVerifyE, hd]
          rw [if_pos h1]
    obtain ⟨e, he⟩ := he
    simp only [addE, he] at hadd
    exact Except.noConfusion hadd

theorem c8_add_block_code_bug_witness :
    addTransactionE (fun _ => true) ["t"] "t" = Except.ok ["t"] ∧
    dget? s2W.hashBlockMap (cF8W.hashH b1W.header) = some b1W ∧
    cF8W.selfOk b1W = false ∧
    addE cF8W s2W b1W = Except.error "Invalid block." ∧
    ∀ s2, addE cF8W s2W b1W ≠ Except.ok s2 :=
  ⟨(c8_add_block_code_bug (H := Nat)).1 (fun _ => true) ["t"] "t" rfl
      (List.mem_singleton.mpr rfl),
    by decide, by decide, by decide,
    (c8_add_block_code_bug (H := Nat)).2 cF8W s2W b1W (by decide)⟩

/-- C3: the chain-store invariants.  The new() store satisfies them; one
successful add preserves them under the content-addressing side condition
freshOkB (automatic for an injective hash oracle); and in every store
reachable from Blockchain.new() by a sequence of successful adds, with an
injective hash oracle avoiding the genesis sentinel: the genesis block is
stored under its hash, every stored block is the genesis block or has its
prev_hash as a stored key, every end-block key is stored, the recorded
chain length of every end block equals the number of prev_hash steps of
the backward walk to genesis, and the end-block map is non-empty. -/
theorem c3_chain_store_invariants :
    (∀ c : Ctx H, c.hashH (genesisHeaderC c) ≠ c.gprev → Inv c (newChainState c)) ∧
    (∀ (c : Ctx H) (s s2 : ChainState H) (b : BlockC H),
      Inv c s → freshOkB c s b = true → addE c s b = Except.ok s2 → Inv c s2) ∧
    (∀ c : Ctx H, (∀ h1 h2 : HeaderC H, c.hashH h1 = c.hashH h2 → h1 = h2) →
      (∀ hd : HeaderC H, c.hashH hd ≠ c.gprev) →
      ∀ (bs : List (BlockC H)) (s2 : ChainState H),
        runAddsE c (newChainState c) bs = Except.ok s2 →
        dget? s2.hashBlockMap (c.hashH (genesisHeaderC c)) = some (genesisBlockC c) ∧
        (∀ kv ∈ s2.hashBlockMap, kv.2 = genesisBlockC c ∨
          dcontains s2.hashBlockMap kv.2.header.prev_hash = true) ∧
        (∀ kn ∈ s2.endhashClenMap, dcontains s2.hashBlockMap kn.1 = true) ∧
        (∀ kn ∈ s2.endhashClenMap, tipWalkLenE c s2 kn.1 = Except.ok kn.2) ∧
        s2.endhashClenMap ≠ []) := by
  refine ⟨fun c hg => inv_new hg, fun c s s2 b h1 h2 h3 => inv_preserved h1 h2 h3, ?_⟩
  intro c hinj hsent bs s2 hrun
  have hinv := inv_runAdds hinj hsent bs _ s2 (inv_new (hsent _)) hrun
  obtain ⟨a1, a2, a3, a4, a5, a6, a7, a8, a9, a10⟩ := hinv
  exact ⟨a4, a5, a7, a8, a9⟩

theorem c3_chain_store_invariants_witness :
    runAddsE cT (newChainState cT) [b1T] = Except.ok sT1 ∧
    dget? sT1.hashBlockMap (cT.hashH (genesisHeaderC cT)) = some (genesisBlockC cT) ∧
    (∀ kn ∈ sT1.endhashClenMap, tipWalkLenE cT sT1 kn.1 = Except.ok kn.2) := by
  refine ⟨by decide, ?_, ?_⟩
  · exact ((c3_chain_store_invariants (H := HashT)).2.2 cT hashTF_inj hashTF_sent
      [b1T] sT1 (by decide)).1
  · exact ((c3_chain_store_invariants (H := HashT)).2.2 cT hashTF_inj hashTF_sent
      [b1T] sT1 (by decide)).2.2.2.1

/-- C1: on every invariant store, resolve returns a stored tip block of
the current best fork: with a single end block, that block; otherwise a
tip of maximal recorded length, and among the maximal-length tips one
whose chain PoW — the tip's header hash read as an integer plus the sum of
the header-hash readings along the walk back to genesis — is maximal.
Being a pure function of the two dictionaries, resolve returns the same
block whenever the dictionaries agree. -/
theorem c1_resolve_best_fork {c : Ctx H} {s : ChainState H} (hinv : Inv c s) :
    ∃ k n b p, dget? s.endhashClenMap k = some n ∧ dget? s.hashBlockMap k = some b ∧
      resolveE c s = Except.ok b ∧
      powE c s k = Except.ok p ∧
      (∃ l, walkE c s.hashBlockMap (walkFuel s.hashBlockMap) b.header.prev_hash
          = Except.ok l ∧
        p = c.hval (c.hashH b.header) + (l.map (fun x => c.hval (c.hashH x.header))).sum) ∧
      (∀ kn ∈ s.endhashClenMap, kn.2 ≤ n) ∧
      (∀ kn ∈ s.endhashClenMap, kn.2 = n → ∀ p2, powE c s kn.1 = Except.ok p2 → p2 ≤ p) ∧
      (∀ kn, s.endhashClenMap = [kn] → kn.1 = k) ∧
      (∀ s3 : ChainState H, s3.hashBlockMap = s.hashBlockMap →
        s3.endhashClenMap = s.endhashClenMap → resolveE c s3 = resolveE c s) := by
  have hdet : ∀ s3 : ChainState H, s3.hashBlockMap = s.hashBlockMap →
      s3.endhashClenMap = s.endhashClenMap → resolveE c s3 = resolveE c s := by
    intro s3 h1 h2
    have hs : s3 = s := by
      cases s3 with
      | mk a b =>
        rw [show s = ChainState.mk s.hashBlockMap s.endhashClenMap from rfl,
          ChainState.mk.injEq]
        exact ⟨h1, h2⟩
    rw [hs]
  have hinv2 := hinv
  obtain ⟨hkh, hknd, hgf, hgen, hpc, hbw, htb, htl, hne, htnd⟩ := hinv2
  obtain ⟨tips, hts⟩ : ∃ l, s.endhashClenMap = l := ⟨_, rfl⟩
  cases tips with
  | nil => exact absurd hts hne
  | cons kn1 tl =>
    cases tl with
    | nil =>
      obtain ⟨k, n⟩ := kn1
      have hmem : (k, n) ∈ s.endhashClenMap := by
        rw [hts]
        exact List.mem_cons_self _ _
      obtain ⟨b, p, l, hq, hpow, hwalk, hpdef, hlen⟩ := powE_of_tip hinv hmem
      refine ⟨k, n, b, p, mem_dget htnd hmem, hq, ?_, hpow, ⟨l, hwalk, hpdef⟩,
        ?_, ?_, ?_, hdet⟩
      · simp only [resolveE, hts, hq]
      · intro kn hkn
        rw [hts] at hkn
        rw [List.mem_singleton.mp hkn]
      · intro kn hkn heq p2 hp2
        rw [hts] at hkn
        rw [List.mem_singleton.mp hkn] at hp2
        rw [hpow] at hp2
        injection hp2 with h
        omega
      · intro kn h
        rw [hts] at h
        injection h with h1 _
        rw [← h1]
    | cons kn2 rest =>
      obtain ⟨k1, n1⟩ := kn1
      obtain ⟨k2, n2⟩ := kn2
      obtain ⟨longest, hl2⟩ :
          ∃ m, maxNat? (((k1, n1) :: (k2, n2) :: rest).map Prod.snd) = some m := ⟨_, rfl⟩
      have hspec := maxNat?_spec
        (x := n1) (l := ((k2, n2) :: rest).map Prod.snd) (m := longest) hl2
      have hub : ∀ kn ∈ s.endhashClenMap, kn.2 ≤ longest := by
        intro kn hkn
        rw [hts] at hkn
        rcases List.mem_cons.mp hkn with h | h
        · rw [h]
          exact hspec.2.1
        · exact hspec.2.2 kn.2 (List.mem_map.mpr ⟨kn, h, rfl⟩)
      have hmaxmem : ∃ kn0, kn0 ∈ s.endhashClenMap ∧ kn0.2 = longest := by
        rcases hspec.1 with h | h
        · exact ⟨(k1, n1), by rw [hts]; exact List.mem_cons_self _ _, h.symm⟩
        · obtain ⟨kn0, hm, he⟩ := List.mem_map.mp h
          exact ⟨kn0, by rw [hts]; exact List.mem_cons_of_mem _ hm, he⟩
      have hcand : ∀ k0 : H, k0 ∈ (((k1, n1) :: (k2, n2) :: rest).filter
          (fun kv => decide (kv.2 = longest))).map Prod.fst ↔
          (k0, longest) ∈ s.endhashClenMap := by
        intro k0
        rw [hts]
        constructor
        · intro h
          obtain ⟨kv, hf, hfst⟩ := List.mem_map.mp h
          rw [List.mem_filter] at hf
          have h2 : kv.2 = longest := by simpa using hf.2
          have h3 : kv = (k0, longest) := by
            cases kv
            simp at hfst h2
            rw [hfst, h2]
          exact h3 ▸ hf.1
        · intro h
          refine List.mem_map.mpr ⟨(k0, longest), ?_, rfl⟩
          rw [List.mem_filter]
          exact ⟨h, by simp⟩
      cases hcs : (((k1, n1) :: (k2, n2) :: rest).filter
          (fun kv => decide (kv.2 = longest))).map Prod.fst with
      | nil =>
        obtain ⟨kn0, hm0, he0⟩ := hmaxmem
        have hmem2 : (kn0.1, longest) ∈ s.endhashClenMap := by
          rw [← he0]
          exact hm0
        have h4 := (hcand kn0.1).mpr hmem2
        rw [hcs] at h4
        simp at h4
      | cons k0 crest =>
        have hk0mem : (k0, longest) ∈ s.endhashClenMap :=
          (hcand k0).mp (by rw [hcs]; exact List.mem_cons_self _ _)
        cases crest with
        | nil =>
          obtain ⟨b0, p0, l0, hq0, hpow0, hwalk0, hpdef0, hlen0⟩ := powE_of_tip hinv hk0mem
          refine ⟨k0, longest, b0, p0, mem_dget htnd hk0mem, hq0, ?_, hpow0,
            ⟨l0, hwalk0, hpdef0⟩, hub, ?_, ?_, hdet⟩
          · simp only [resolveE, hts, hl2, hcs, hq0]
          · intro kn hkn heq p2 hp2
            have hknc : kn.1 ∈ (((k1, n1) :: (k2, n2) :: rest).filter
                (fun kv => decide (kv.2 = longest))).map Prod.fst := by
              refine (hcand kn.1).mpr ?_
              rw [← heq]
              exact hkn
            rw [hcs] at hknc
            have h5 : kn.1 = k0 := List.mem_singleton.mp hknc
            rw [h5, hpow0] at hp2
            injection hp2 with h6
            omega
          · intro kn h
            rw [hts] at h
            injection h with _ h2
            exact List.noConfusion h2
        | cons k4 crest2 =>
          have hall : ∀ y ∈ k0 :: k4 :: crest2, ∃ py, powE c s y = Except.ok py := by
            intro y hy
            have hym : (y, longest) ∈ s.endhashClenMap :=
              (hcand y).mp (by rw [hcs]; exact hy)
            obtain ⟨by2, py, ly, _, hpy, _, _, _⟩ := powE_of_tip hinv hym
            exact ⟨py, hpy⟩
          obtain ⟨k, p, hpick, hkmem, hkpow, hkmax⟩ := pyMaxKeyE_spec hall
          have hkc : (k, longest) ∈ s.endhashClenMap :=
            (hcand k).mp (by rw [hcs]; exact hkmem)
          obtain ⟨b, p3, l3, hq3, hpow3, hwalk3, hpdef3, hlen3⟩ := powE_of_tip hinv hkc
          have hp3 : p3 = p := by
            rw [hpow3] at hkpow
            injection hkpow with h6
          refine ⟨k, longest, b, p, mem_dget htnd hkc, hq3, ?_, hkpow,
            ⟨l3, hwalk3, by rw [← hp3]; exact hpdef3⟩, hub, ?_, ?_, hdet⟩
          · simp only [resolveE, hts, hl2, hcs, hpick, hq3]
          · intro kn hkn heq p2 hp2
            have hknc : kn.1 ∈ (((k1, n1) :: (k2, n2) :: rest).filter
                (fun kv => decide (kv.2 = longest))).map Prod.fst := by
              refine (hcand kn.1).mpr ?_
              rw [← heq]
              exact hkn
            rw [hcs] at hknc
            exact hkmax kn.1 hknc p2 hp2
          · intro kn h
            rw [hts] at h
            injection h with _ h2
            exact List.noConfusion h2

theorem c1_resolve_best_fork_witness :
    Inv cW sForkW ∧ ∃ b, resolveE cW sForkW = Except.ok b := by
  refine ⟨by decide, ?_⟩
  obtain ⟨k, n, b, p, _, _, h3, _⟩ := c1_resolve_best_fork (c := cW) (s := sForkW) (by decide)
  exact ⟨b, h3⟩

end SutdCoin
